import Mathlib

/-!
Shallow embedding of the snippet/highlight core of the mcp-fess repository:
`_extract_query_terms`, `_apply_highlight`, `_generate_snippets` and
`_validate_and_clamp_snippet_args` from `src/mcp_fess/server.py`, and
`truncate_text_utf8_safe` from `src/mcp_fess/fess_client.py`.

Python strings are modelled as `List Char`, byte strings as `List Nat`.
Python's `str.lower`, `str.find` (with optional start/stop bounds),
whitespace `split`, `strip`, and slice semantics are modelled by the helpers
below.  `max(0, a - b)` on Python ints coincides with truncated subtraction
on `Nat`, which is used where the Python code clamps at zero.
-/

namespace McpFess

/-- Python `str.lower`, per character (ASCII model of Unicode lowercasing). -/
def lowerList (s : List Char) : List Char := s.map Char.toLower

/-- A regex word character for `\b`: `[A-Za-z0-9_]` (ASCII model), written
out by code point. -/
def isWordChar (c : Char) : Bool :=
  decide ((65 ≤ c.toNat ∧ c.toNat ≤ 90) ∨ (97 ≤ c.toNat ∧ c.toNat ≤ 122) ∨
    (48 ≤ c.toNat ∧ c.toNat ≤ 57) ∨ c.toNat = 95)

/-- `substrAt hay needle i` holds when `needle` occurs in `hay` starting at
offset `i`, the occurrence lying entirely inside `hay`. -/
def substrAt (hay needle : List Char) (i : Nat) : Bool :=
  (hay.drop i).take needle.length == needle

/-- Python `hay.find(needle, start, stop)`: the least index `i ≥ start` at which
`needle` occurs with the occurrence contained in the first `stop` characters;
`none` when there is no such index (Python returns `-1`). -/
def findFrom (hay needle : List Char) (start stop : Nat) : Option Nat :=
  if start ≤ hay.length then
    (List.range' start (stop + 1 - start)).find?
      (fun i => decide (i + needle.length ≤ stop) && substrAt hay needle i)
  else none

/-- The inner `while` loop of `_apply_highlight` for one term: starting at
`pos`, find each occurrence of the (lowercased) term; accept it as a span
exactly when it overlaps no already-accepted span; continue from `idx + 1`.
`fuel` bounds the number of iterations so the recursion is structural; every
iteration advances `pos` by at least one, so any `fuel` with
`fragLower.length ≤ fuel + pos` makes the loop behave exactly like the
unbounded Python loop (see `collectSpansLoop_fuel_irrelevant`). -/
def collectSpansLoop (fragLower termLower : List Char) (termLen : Nat) :
    Nat → Nat → List (Nat × Nat) → List (Nat × Nat)
  | 0, _, spans => spans
  | fuel + 1, pos, spans =>
    if pos < fragLower.length then
      match findFrom fragLower termLower pos fragLower.length with
      | none => spans
      | some idx =>
        collectSpansLoop fragLower termLower termLen fuel (idx + 1)
          (if spans.all (fun se => decide (se.2 ≤ idx) || decide (idx + termLen ≤ se.1)) then
            spans ++ [(idx, idx + termLen)]
          else spans)
    else spans

/-- Descending-length order on terms; `List.insertionSort` with it is the
stable sort `sorted(terms, key=len, reverse=True)` computes. -/
def lenGe (a b : List Char) : Prop := b.length ≤ a.length

instance : DecidableRel lenGe :=
  fun a b => inferInstanceAs (Decidable (b.length ≤ a.length))

/-- Python `sorted(terms, key=len, reverse=True)`: a stable sort by descending
length (ties keep their original relative order). -/
def sortTermsByLenDesc (terms : List (List Char)) : List (List Char) :=
  List.insertionSort lenGe terms

/-- The accepted highlight spans of `_apply_highlight`, in insertion order:
terms are scanned longest first, and each occurrence is accepted only if it
overlaps no previously accepted span. -/
def highlightSpans (fragment : List Char) (terms : List (List Char)) : List (Nat × Nat) :=
  (sortTermsByLenDesc terms).foldl
    (fun spans term =>
      collectSpansLoop (lowerList fragment) (lowerList term) term.length
        (lowerList fragment).length 0 spans)
    []

/-- Lexicographic order on span pairs, as Python's tuple comparison. -/
def spanLe (a b : Nat × Nat) : Prop := a.1 < b.1 ∨ (a.1 = b.1 ∧ a.2 ≤ b.2)

instance : DecidableRel spanLe :=
  fun a b => inferInstanceAs (Decidable (a.1 < b.1 ∨ (a.1 = b.1 ∧ a.2 ≤ b.2)))

instance : IsTotal (Nat × Nat) spanLe :=
  ⟨by intro a b; unfold spanLe; omega⟩

instance : IsTrans (Nat × Nat) spanLe :=
  ⟨by intro a b c; unfold spanLe; omega⟩

/-- Python `spans.sort()`: lexicographic sort of the span pairs. -/
def sortSpans (spans : List (Nat × Nat)) : List (Nat × Nat) :=
  List.insertionSort spanLe spans

/-- The output-rebuilding loop of `_apply_highlight`: text before each span,
then the tagged span text, finishing with the text after the last span. -/
def renderSpans (fragment tagPre tagPost : List Char) : Nat → List (Nat × Nat) → List Char
  | pos, [] => fragment.drop pos
  | pos, (s, e) :: rest =>
    (fragment.drop pos).take (s - pos) ++ tagPre ++ (fragment.drop s).take (e - s)
      ++ tagPost ++ renderSpans fragment tagPre tagPost e rest

/-- `_apply_highlight(fragment, terms, tag_pre, tag_post)` from `server.py`. -/
def apply_highlight (fragment : List Char) (terms : List (List Char))
    (tagPre tagPost : List Char) : List Char :=
  if terms = [] then fragment
  else if highlightSpans fragment terms = [] then fragment
  else renderSpans fragment tagPre tagPost 0 (sortSpans (highlightSpans fragment terms))

/-- The ellipsis character `"…"` appended or prepended to clipped snippets. -/
def ellipsisChar : Char := Char.ofNat 8230

/-- The start-of-text fallback snippet of `_generate_snippets`: the first
`sizeChars` characters with a trailing ellipsis iff the text is longer. -/
def fallbackSnippet (text : List Char) (sizeChars : Nat) : List Char :=
  text.take sizeChars ++ (if sizeChars < text.length then [ellipsisChar] else [])

/-- The inner `while` loop of `_generate_snippets`' match collection for one
term: scan within the first `scanLimit` characters, collect not-yet-seen
occurrence offsets, stop once `cap` positions have been collected.  The seen
set of the Python code always equals the set of collected positions, so it is
modelled by membership in the accumulator.  `fuel` bounds the number of
iterations so the recursion is structural; every iteration advances `pos` by
at least one, so any `fuel` with `scanLimit ≤ fuel + pos` makes the loop
behave exactly like the unbounded Python loop (see
`collectTermPositions_fuel_irrelevant`). -/
def collectTermPositions (textLower termLower : List Char) (scanLimit cap : Nat) :
    Nat → Nat → List Nat → List Nat
  | 0, _, acc => acc
  | fuel + 1, pos, acc =>
    if pos < scanLimit ∧ acc.length < cap then
      match findFrom textLower termLower pos scanLimit with
      | none => acc
      | some idx =>
        collectTermPositions textLower termLower scanLimit cap fuel (idx + 1)
          (if idx ∈ acc then acc else acc ++ [idx])
    else acc

/-- The match-collection phase of `_generate_snippets` over all query terms,
in the order given, with the shared deduplicated accumulator. -/
def collectPositions (textLower : List Char) (terms : List (List Char))
    (scanLimit cap : Nat) : List Nat :=
  terms.foldl
    (fun acc term =>
      collectTermPositions textLower (lowerList term) scanLimit cap scanLimit 0 acc)
    []

/-- The window-building loop of `_generate_snippets`: around each match
position build a window of `sizeChars` characters, shifted back when clipped
at the text end; skip candidates whose start falls before the previous
accepted window's end; stop after `maxFragments` accepted windows.
`lastEnd` starts at `-1` and `count` is the number of windows accepted so far. -/
def buildWindows (textLen sizeChars maxFragments : Nat) :
    List Nat → Int → Nat → List (Nat × Nat)
  | [], _, _ => []
  | p :: rest, lastEnd, count =>
    let half := sizeChars / 2
    let winStart0 := p - half
    let winEnd := min textLen (winStart0 + sizeChars)
    let winStart := if winEnd - winStart0 < sizeChars then winEnd - sizeChars else winStart0
    if (winStart : Int) < lastEnd then
      buildWindows textLen sizeChars maxFragments rest lastEnd count
    else if maxFragments ≤ count + 1 then [(winStart, winEnd)]
    else (winStart, winEnd) ::
      buildWindows textLen sizeChars maxFragments rest (winEnd : Int) (count + 1)

/-- The deduplicated match positions `_generate_snippets` collects within the
scan window (the prefix of length `min(len(text), scan_max_chars)`), capped at
`max_fragments * 5`. -/
def snippetMatchPositions (text : List Char) (queryTerms : List (List Char))
    (maxFragments scanMaxChars : Nat) : List Nat :=
  collectPositions (lowerList text) queryTerms (min text.length scanMaxChars)
    (maxFragments * 5)

/-- The accepted snippet windows of `_generate_snippets`: built from the
sorted match positions with overlap avoidance and the fragment cap. -/
def snippetWindows (text : List Char) (queryTerms : List (List Char))
    (sizeChars maxFragments scanMaxChars : Nat) : List (Nat × Nat) :=
  buildWindows text.length sizeChars maxFragments
    (List.insertionSort (fun a b => a ≤ b)
      (snippetMatchPositions text queryTerms maxFragments scanMaxChars))
    (-1) 0

/-- Rendering of one accepted window: leading ellipsis iff the window does not
start at the text start, the highlighted slice, trailing ellipsis iff the
window does not reach the text end. -/
def renderWindow (text : List Char) (queryTerms : List (List Char))
    (tagPre tagPost : List Char) (w : Nat × Nat) : List Char :=
  (if 0 < w.1 then [ellipsisChar] else []) ++
    apply_highlight ((text.drop w.1).take (w.2 - w.1)) queryTerms tagPre tagPost ++
    (if w.2 < text.length then [ellipsisChar] else [])

/-- `_generate_snippets(text, query_terms, size_chars, max_fragments, tag_pre,
tag_post, scan_max_chars)` from `server.py`. -/
def generate_snippets (text : List Char) (queryTerms : List (List Char))
    (sizeChars maxFragments : Nat) (tagPre tagPost : List Char)
    (scanMaxChars : Nat) : List (List Char) :=
  if text = [] then []
  else if queryTerms = [] then [fallbackSnippet text sizeChars]
  else if snippetMatchPositions text queryTerms maxFragments scanMaxChars = [] then
    [fallbackSnippet text sizeChars]
  else
    (snippetWindows text queryTerms sizeChars maxFragments scanMaxChars).map
      (renderWindow text queryTerms tagPre tagPost)

/-- The boolean-operator words stripped by `_extract_query_terms`, lowercased:
`AND`, `OR`, `NOT`. -/
def OPS : List (List Char) := [['a', 'n', 'd'], ['o', 'r'], ['n', 'o', 't']]

/-- Whether position `k` of `s` is a trailing `\b` boundary for a word ending
there: the string ends or the next character is a non-word character. -/
def boundaryAfter (s : List Char) (k : Nat) : Bool :=
  match s.drop k with
  | [] => true
  | c :: _ => !isWordChar c

/-- Whether one operator word matches case-insensitively at the head of `s`
with a trailing word boundary (`op` is given lowercased). -/
def opMatchAt (s : List Char) (op : List Char) : Bool :=
  lowerList (s.take op.length) == op && boundaryAfter s op.length

/-- The scan of `re.sub(r"\b(AND|OR|NOT)\b", " ", query, flags=IGNORECASE)`:
`prevWord` records whether the previous character of the original string is a
word character (so a leading `\b` is present exactly when it is `false`); each
whole-word operator occurrence is replaced by a single space and the scan
resumes after it.  At any position at most one of the three alternatives can
match (their first letters differ), so testing them in the regex's
alternation order is exact.  The one-element `match` fallbacks are
unreachable (a matched operator word lies inside the string) and return what
dropping the matched word would. -/
def subScanOps : Bool → List Char → List Char
  | _, [] => []
  | prevWord, c :: rest =>
    if prevWord then c :: subScanOps (isWordChar c) rest
    else if opMatchAt (c :: rest) ['a', 'n', 'd'] then
      match rest with
      | _ :: _ :: rest3 => ' ' :: subScanOps true rest3
      | _ => [' ']
    else if opMatchAt (c :: rest) ['o', 'r'] then
      match rest with
      | _ :: rest2 => ' ' :: subScanOps true rest2
      | _ => [' ']
    else if opMatchAt (c :: rest) ['n', 'o', 't'] then
      match rest with
      | _ :: _ :: rest3 => ' ' :: subScanOps true rest3
      | _ => [' ']
    else c :: subScanOps (isWordChar c) rest

/-- The punctuation set stripped from token ends:
`.`, `,`, `;`, `:`, `!`, `?`, `(`, `)`, `[`, `]`, the two curly braces,
`|` and the backslash. -/
def PUNCT : List Char :=
  ['.', ',', ';', ':', '!', '?', '(', ')', '[', ']', '\x7b', '\x7d', '|', '\\']

/-- Membership in the stripped punctuation set. -/
def isPunctChar (c : Char) : Bool := PUNCT.contains c

/-- Python `token.strip(".,;:!?()[]{}|\\")`: remove leading and trailing
characters of the punctuation set. -/
def stripPunct (t : List Char) : List Char :=
  ((t.dropWhile isPunctChar).reverse.dropWhile isPunctChar).reverse

/-- Python `str.split()` with no separator: skip whitespace, then emit the
maximal non-whitespace run and continue after it.  `fuel` bounds the number
of steps so the recursion is structural; every step consumes at least one
character, so any `fuel` covering the string length is exact (`splitWs`
passes the length). -/
def splitWsF : Nat → List Char → List (List Char)
  | 0, _ => []
  | _ + 1, [] => []
  | fuel + 1, c :: rest =>
    if c.isWhitespace then splitWsF fuel rest
    else (c :: rest.takeWhile (fun d => !d.isWhitespace)) ::
      splitWsF fuel (rest.dropWhile (fun d => !d.isWhitespace))

/-- Python `str.split()` with no separator: split on runs of whitespace,
producing only non-empty tokens. -/
def splitWs (s : List Char) : List (List Char) :=
  splitWsF s.length s

/-- `_extract_query_terms(query)` from `server.py`: strip whole-word boolean
operators, delete quote characters, split on whitespace, strip punctuation
from token ends, keep tokens of length at least 2. -/
def extract_query_terms (query : List Char) : List (List Char) :=
  let cleaned := subScanOps false query
  let cleaned2 := cleaned.filter (fun c => !(c = '"' || c = '\''))
  (splitWs cleaned2).filterMap (fun token =>
    let t := stripPunct token
    if 1 < t.length then some t else none)

/-- UTF-8 encoding of one scalar value, by codepoint range (1 to 4 bytes). -/
def encodeChar (c : Char) : List Nat :=
  let v := c.toNat
  if v < 128 then [v]
  else if v < 2048 then [192 + v / 64, 128 + v % 64]
  else if v < 65536 then [224 + v / 4096, 128 + v / 64 % 64, 128 + v % 64]
  else [240 + v / 262144, 128 + v / 4096 % 64, 128 + v / 64 % 64, 128 + v % 64]

/-- Python `text.encode("utf-8")` as a byte list. -/
def utf8Encode (s : List Char) : List Nat := (s.map encodeChar).flatten

/-- A UTF-8 continuation byte (`0x80`–`0xBF`). -/
def isContByte (b : Nat) : Bool := decide (128 ≤ b) && decide (b < 192)

/-- Python `bytes.decode("utf-8", errors="ignore")`: a strict UTF-8 decoder
(rejecting truncated sequences, stray continuation bytes, overlong forms,
surrogates and out-of-range values) that skips offending bytes instead of
failing.  Each step consumes at least one byte, so any `fuel` of at least the
list length makes the result independent of `fuel`; `utf8DecodeIgnore` below
passes the length. -/
def utf8DecodeIgnoreF : Nat → List Nat → List Char
  | 0, _ => []
  | _ + 1, [] => []
  | fuel + 1, b0 :: rest =>
    if b0 < 128 then Char.ofNat b0 :: utf8DecodeIgnoreF fuel rest
    else if b0 < 194 then utf8DecodeIgnoreF fuel rest
    else if b0 < 224 then
      match rest with
      | [] => []
      | b1 :: rest1 =>
        if isContByte b1 then
          Char.ofNat ((b0 - 192) * 64 + (b1 - 128)) :: utf8DecodeIgnoreF fuel rest1
        else utf8DecodeIgnoreF fuel (b1 :: rest1)
    else if b0 < 240 then
      match rest with
      | [] => []
      | [b1] => utf8DecodeIgnoreF fuel [b1]
      | b1 :: b2 :: rest2 =>
        if isContByte b1 && isContByte b2 &&
            decide (2048 ≤ (b0 - 224) * 4096 + (b1 - 128) * 64 + (b2 - 128)) &&
            !(decide (55296 ≤ (b0 - 224) * 4096 + (b1 - 128) * 64 + (b2 - 128)) &&
              decide ((b0 - 224) * 4096 + (b1 - 128) * 64 + (b2 - 128) < 57344)) then
          Char.ofNat ((b0 - 224) * 4096 + (b1 - 128) * 64 + (b2 - 128)) ::
            utf8DecodeIgnoreF fuel rest2
        else utf8DecodeIgnoreF fuel (b1 :: b2 :: rest2)
    else if b0 < 245 then
      match rest with
      | [] => []
      | [b1] => utf8DecodeIgnoreF fuel [b1]
      | [b1, b2] => utf8DecodeIgnoreF fuel [b1, b2]
      | b1 :: b2 :: b3 :: rest3 =>
        if isContByte b1 && isContByte b2 && isContByte b3 &&
            decide (65536 ≤ (b0 - 240) * 262144 + (b1 - 128) * 4096 + (b2 - 128) * 64 + (b3 - 128)) &&
            decide ((b0 - 240) * 262144 + (b1 - 128) * 4096 + (b2 - 128) * 64 + (b3 - 128) < 1114112) then
          Char.ofNat ((b0 - 240) * 262144 + (b1 - 128) * 4096 + (b2 - 128) * 64 + (b3 - 128)) ::
            utf8DecodeIgnoreF fuel rest3
        else utf8DecodeIgnoreF fuel (b1 :: b2 :: b3 :: rest3)
    else utf8DecodeIgnoreF fuel rest

/-- Python `bytes.decode("utf-8", errors="ignore")` on a byte list. -/
def utf8DecodeIgnore (l : List Nat) : List Char :=
  utf8DecodeIgnoreF l.length l


/-- `truncate_text_utf8_safe(text, max_bytes)` from `fess_client.py`: encode,
keep the text when it fits, otherwise decode the first `maxBytes` bytes with
ignore-errors semantics.  The byte budget is a `Nat`: the callers pass the
non-negative configured chunk limit. -/
def truncate_text_utf8_safe (text : List Char) (maxBytes : Nat) : List Char × Bool :=
  if text = [] then (text, false)
  else if (utf8Encode text).length ≤ maxBytes then (text, false)
  else (utf8DecodeIgnore ((utf8Encode text).take maxBytes), true)

/-- The longest character prefix whose UTF-8 encoding fits in `n` bytes; used
to characterise what truncation at a byte boundary yields. -/
def utf8TakeBytes (s : List Char) (n : Nat) : List Char :=
  match s with
  | [] => []
  | c :: rest =>
    if (encodeChar c).length ≤ n then c :: utf8TakeBytes rest (n - (encodeChar c).length)
    else []

/-- A JSON-ish argument value as far as the validator observes it: a Python
int, or some value that is not an int. -/
inductive PyVal where
  | int (n : Int)
  | notInt
deriving DecidableEq

/-- The configured snippet limits consumed by the validator
(`self.config.limits`). -/
structure SnippetLimits where
  snippetDefaultChars : Int
  snippetMinChars : Int
  snippetMaxChars : Int
  snippetDefaultFragments : Int
  snippetMaxFragments : Int
  snippetDefaultDocs : Int
  snippetMaxDocs : Int
  snippetScanMaxChars : Int
deriving DecidableEq

/-- The snippet-related entries of the `arguments` dict: `None` models an
absent key. -/
structure SnippetArgs where
  snippet_size_chars : Option PyVal
  snippet_fragments : Option PyVal
  snippet_docs : Option PyVal
  snippet_scan_max_chars : Option PyVal
  snippet_tag_pre : Option (List Char)
  snippet_tag_post : Option (List Char)
deriving DecidableEq

/-- The effective (post-clamping) parameter record returned by
`_validate_and_clamp_snippet_args`. -/
structure EffectiveSnippetParams where
  sizeChars : Int
  fragments : Int
  docs : Int
  scanMaxChars : Int
  tagPre : List Char
  tagPost : List Char
  clamped : Bool
deriving DecidableEq

/-- The `snippet_size_chars` block of the validator: default when absent,
invalid-argument error when not a positive int, clamping at both the
configured minimum and maximum. -/
def clampSizeChars (limits : SnippetLimits) (raw : Option PyVal) :
    Except String (Int × Bool) :=
  match raw with
  | none => .ok (limits.snippetDefaultChars, false)
  | some .notInt => .error "snippet_size_chars must be a positive integer"
  | some (.int n) =>
    if n < 1 then .error "snippet_size_chars must be a positive integer"
    else if n < limits.snippetMinChars then .ok (limits.snippetMinChars, true)
    else if limits.snippetMaxChars < n then .ok (limits.snippetMaxChars, true)
    else .ok (n, false)

/-- The `snippet_fragments` block of the validator (clamped at the maximum
only). -/
def clampFragments (limits : SnippetLimits) (raw : Option PyVal) :
    Except String (Int × Bool) :=
  match raw with
  | none => .ok (limits.snippetDefaultFragments, false)
  | some .notInt => .error "snippet_fragments must be a positive integer"
  | some (.int n) =>
    if n < 1 then .error "snippet_fragments must be a positive integer"
    else if limits.snippetMaxFragments < n then .ok (limits.snippetMaxFragments, true)
    else .ok (n, false)

/-- The `snippet_docs` block of the validator (clamped at the maximum only). -/
def clampDocs (limits : SnippetLimits) (raw : Option PyVal) :
    Except String (Int × Bool) :=
  match raw with
  | none => .ok (limits.snippetDefaultDocs, false)
  | some .notInt => .error "snippet_docs must be a positive integer"
  | some (.int n) =>
    if n < 1 then .error "snippet_docs must be a positive integer"
    else if limits.snippetMaxDocs < n then .ok (limits.snippetMaxDocs, true)
    else .ok (n, false)

/-- The `snippet_scan_max_chars` block of the validator (clamped at the
configured scan cap only). -/
def clampScanMaxChars (limits : SnippetLimits) (raw : Option PyVal) :
    Except String (Int × Bool) :=
  match raw with
  | none => .ok (limits.snippetScanMaxChars, false)
  | some .notInt => .error "snippet_scan_max_chars must be a positive integer"
  | some (.int n) =>
    if n < 1 then .error "snippet_scan_max_chars must be a positive integer"
    else if limits.snippetScanMaxChars < n then .ok (limits.snippetScanMaxChars, true)
    else .ok (n, false)

/-- `_validate_and_clamp_snippet_args(arguments)` from `server.py`: the four
numeric parameters are validated and clamped in source order, and the tag
strings default to `<em>`/`</em>`. -/
def validate_and_clamp_snippet_args (limits : SnippetLimits) (args : SnippetArgs) :
    Except String EffectiveSnippetParams :=
  match clampSizeChars limits args.snippet_size_chars with
  | .error msg => .error msg
  | .ok (size, c1) =>
    match clampFragments limits args.snippet_fragments with
    | .error msg => .error msg
    | .ok (frags, c2) =>
      match clampDocs limits args.snippet_docs with
      | .error msg => .error msg
      | .ok (docs, c3) =>
        match clampScanMaxChars limits args.snippet_scan_max_chars with
        | .error msg => .error msg
        | .ok (scan, c4) =>
          .ok ⟨size, frags, docs, scan,
            args.snippet_tag_pre.getD ("<em>".data),
            args.snippet_tag_post.getD ("</em>".data),
            c1 || c2 || c3 || c4⟩

/-- The snippet-enrichment phase of `_handle_search` once the `snippets` flag
is set: validation and clamping happen first, and only on success are the
first `snippet_docs` document texts scanned for snippets.  Clamped `Int`
values are passed on as the `Nat` they represent (the validator only lets
positive values through). -/
def enrichHitsWithSnippets (limits : SnippetLimits) (args : SnippetArgs)
    (query : List Char) (docTexts : List (List Char)) :
    Except String (List (List (List Char))) :=
  match validate_and_clamp_snippet_args limits args with
  | .error msg => .error msg
  | .ok p =>
    .ok ((docTexts.take p.docs.toNat).map (fun text =>
      generate_snippets text (extract_query_terms query) p.sizeChars.toNat
        p.fragments.toNat p.tagPre p.tagPost p.scanMaxChars.toNat))

/-- A supplied argument value that the validator rejects: present and either
not an int or non-positive. -/
def paramInvalid : Option PyVal → Bool
  | none => false
  | some (.int n) => decide (n < 1)
  | some .notInt => true

/-- The first (in validation order) supplied-and-invalid snippet parameter of
an argument dict; the validator's error message names exactly this
parameter. -/
def firstInvalidParamName (args : SnippetArgs) : String :=
  if paramInvalid args.snippet_size_chars then "snippet_size_chars"
  else if paramInvalid args.snippet_fragments then "snippet_fragments"
  else if paramInvalid args.snippet_docs then "snippet_docs"
  else "snippet_scan_max_chars"

/-- A delimited operator occurrence in a string: a slice whose lowercase form
is one of `AND`/`OR`/`NOT`, preceded by a non-word character (or the start of
the string, provided the flag `b` says the character before the string is
non-word) and followed by a non-word character or the end of the string.
`re.sub(r"\b(AND|OR|NOT)\b", ...)` replaces exactly such occurrences, so its
output must contain none (`subScanOps_no_delim`). -/
def DelimOcc (b : Bool) (l : List Char) : Prop :=
  ∃ pre op post, l = pre ++ op ++ post ∧ lowerList op ∈ OPS ∧
    (pre = [] → b = false) ∧
    (∀ c, pre.getLast? = some c → isWordChar c = false) ∧
    (∀ c, post.head? = some c → isWordChar c = false)

/-! ## Lemmas about `findFrom` -/

/-- The empty needle occurs everywhere. -/
theorem substrAt_nil (hay : List Char) (i : Nat) : substrAt hay [] i = true := by
  simp [substrAt]

/-- A successful `findFrom` returns an index at or after `start` whose
occurrence fits below `stop`. -/
theorem findFrom_some {hay needle : List Char} {start stop idx : Nat}
    (h : findFrom hay needle start stop = some idx) :
    start ≤ idx ∧ idx + needle.length ≤ stop ∧ substrAt hay needle idx = true := by
  unfold findFrom at h
  split at h
  · have hp := List.find?_some h
    obtain ⟨k, hk, hm⟩ := List.mem_range'.mp (List.mem_of_find?_eq_some h)
    simp only [Bool.and_eq_true, decide_eq_true_eq] at hp
    exact ⟨by omega, hp.1, hp.2⟩
  · simp at h

/-- Searching for the empty needle returns the start position itself. -/
theorem findFrom_nil_some {hay : List Char} {start stop idx : Nat}
    (h : findFrom hay [] start stop = some idx) : idx = start := by
  unfold findFrom at h
  split at h
  · cases hn : stop + 1 - start with
    | zero => rw [hn] at h; simp at h
    | succ m =>
      rw [hn, List.range'_succ, List.find?_cons_of_pos] at h
      · exact (Option.some.inj h).symm
      · simp [substrAt_nil]
        omega
  · simp at h

/-! ## The highlighter's no-overlap invariant (C2) -/

/-- One pass of the span-collection loop preserves pairwise non-overlap of the
accepted spans: a new span is accepted only when the overlap test against
every already-accepted span fails. -/
theorem collectSpansLoop_pairwise (fl tl : List Char) (tlen : Nat) :
    ∀ (fuel pos : Nat) (spans : List (Nat × Nat)),
      spans.Pairwise (fun a b => ¬ (a.1 < b.2 ∧ b.1 < a.2)) →
      (collectSpansLoop fl tl tlen fuel pos spans).Pairwise
        (fun a b => ¬ (a.1 < b.2 ∧ b.1 < a.2)) := by
  intro fuel
  induction fuel with
  | zero => intro pos spans h; exact h
  | succ n ih =>
    intro pos spans h
    rw [collectSpansLoop]
    split
    · cases hf : findFrom fl tl pos fl.length with
      | none => simpa [hf] using h
      | some idx =>
        simp only [hf]
        apply ih
        split
        · next hall =>
          rw [List.pairwise_append]
          refine ⟨h, by simp, ?_⟩
          intro a ha b hb
          simp only [List.mem_singleton] at hb
          subst hb
          have := List.all_eq_true.mp hall a ha
          simp only [Bool.or_eq_true, decide_eq_true_eq] at this
          omega
        · exact h
    · exact h

/-- Folding the span-collection loop over any term list preserves the
pairwise non-overlap invariant. -/
theorem foldl_collectSpans_pairwise (fl : List Char) :
    ∀ (ts : List (List Char)) (spans : List (Nat × Nat)),
      spans.Pairwise (fun a b => ¬ (a.1 < b.2 ∧ b.1 < a.2)) →
      (ts.foldl
        (fun spans term => collectSpansLoop fl (lowerList term) term.length fl.length 0 spans)
        spans).Pairwise (fun a b => ¬ (a.1 < b.2 ∧ b.1 < a.2)) := by
  intro ts
  induction ts with
  | nil => intro spans h; exact h
  | cons t ts ih =>
    intro spans h
    exact ih _ (collectSpansLoop_pairwise fl (lowerList t) t.length _ 0 spans h)

/-- C2: for every call to `applyHighlight` (any fragment, any term list; the
tag strings do not influence span acceptance), the accepted highlight-span
set contains no two spans `[start, end)` and `[otherStart, otherEnd)` with
both `start < otherEnd` and `end > otherStart`; spans touching exactly at a
boundary are allowed. -/
theorem highlight_spans_no_overlap (fragment : List Char) (terms : List (List Char)) :
    (highlightSpans fragment terms).Pairwise
      (fun a b => ¬ (a.1 < b.2 ∧ b.1 < a.2)) := by
  unfold highlightSpans
  exact foldl_collectSpans_pairwise (lowerList fragment) (sortTermsByLenDesc terms) []
    List.Pairwise.nil

/-! ## Highlighting inserts tags only (C9) -/

/-- The span-collection loop only accepts well-formed spans
(`start ≤ end`). -/
theorem collectSpansLoop_start_le_end (fl tl : List Char) (tlen : Nat) :
    ∀ (fuel pos : Nat) (spans : List (Nat × Nat)),
      (∀ a ∈ spans, a.1 ≤ a.2) →
      ∀ a ∈ collectSpansLoop fl tl tlen fuel pos spans, a.1 ≤ a.2 := by
  intro fuel
  induction fuel with
  | zero => intro pos spans h; exact h
  | succ n ih =>
    intro pos spans h
    rw [collectSpansLoop]
    split
    · cases hf : findFrom fl tl pos fl.length with
      | none => simpa [hf] using h
      | some idx =>
        simp only [hf]
        apply ih
        split
        · intro a ha
          rcases List.mem_append.mp ha with ha | ha
          · exact h a ha
          · simp only [List.mem_singleton] at ha
            subst ha
            omega
        · exact h
    · exact h

/-- All spans `_apply_highlight` accepts are well-formed. -/
theorem highlightSpans_start_le_end (fragment : List Char) (terms : List (List Char)) :
    ∀ a ∈ highlightSpans fragment terms, a.1 ≤ a.2 := by
  unfold highlightSpans
  have main : ∀ (ts : List (List Char)) (spans : List (Nat × Nat)),
      (∀ a ∈ spans, a.1 ≤ a.2) →
      ∀ a ∈ ts.foldl
        (fun spans term =>
          collectSpansLoop (lowerList fragment) (lowerList term) term.length
            (lowerList fragment).length 0 spans)
        spans, a.1 ≤ a.2 := by
    intro ts
    induction ts with
    | nil => intro spans h; exact h
    | cons t ts ih =>
      intro spans h
      exact ih _ (collectSpansLoop_start_le_end _ _ _ _ _ spans h)
  exact main _ [] (by simp)

/-- Gluing a slice `[a, b)` back onto the tail from `b` recovers the tail
from `a`. -/
theorem take_drop_glue (l : List Char) {a b : Nat} (h : a ≤ b) :
    (l.drop a).take (b - a) ++ l.drop b = l.drop a := by
  have hd : l.drop b = (l.drop a).drop (b - a) := by
    rw [List.drop_drop]
    congr 1
    omega
  rw [hd, List.take_append_drop]

/-- A sorted, pairwise non-overlapping, well-formed span list is chained:
each span ends before the next begins. -/
theorem sorted_spans_chain :
    ∀ l : List (Nat × Nat), l.Sorted spanLe →
      l.Pairwise (fun a b => ¬ (a.1 < b.2 ∧ b.1 < a.2)) →
      (∀ a ∈ l, a.1 ≤ a.2) →
      l.Chain' (fun a b => a.2 ≤ b.1)
  | [] => by intro _ _ _; simp
  | [a] => by intro _ _ _; simp
  | a :: b :: t => by
    intro hs hp hwf
    rw [List.chain'_cons]
    refine ⟨?_, sorted_spans_chain (b :: t) (List.sorted_cons.mp hs).2
      (List.pairwise_cons.mp hp).2 (fun x hx => hwf x (List.mem_cons_of_mem a hx))⟩
    have h1 : spanLe a b := (List.sorted_cons.mp hs).1 b (by simp)
    have h2 := (List.pairwise_cons.mp hp).1 b (by simp)
    have h3 := hwf a (by simp)
    have h4 := hwf b (by simp)
    unfold spanLe at h1
    omega

/-- Rendering with empty tags over a chained well-formed span list yields the
fragment tail unchanged. -/
theorem renderSpans_nil_tags (fragment : List Char) :
    ∀ (spans : List (Nat × Nat)) (pos : Nat),
      (∀ a ∈ spans, a.1 ≤ a.2) →
      List.Chain (fun a b => a.2 ≤ b.1) (pos, pos) spans →
      renderSpans fragment [] [] pos spans = fragment.drop pos := by
  intro spans
  induction spans with
  | nil => intro pos _ _; rfl
  | cons se rest ih =>
    intro pos hwf hchain
    obtain ⟨s, e⟩ := se
    rw [List.chain_cons] at hchain
    have hpos : pos ≤ s := hchain.1
    have hse : s ≤ e := hwf (s, e) (by simp)
    have hrest : List.Chain (fun a b => a.2 ≤ b.1) (e, e) rest := by
      cases rest with
      | nil => exact List.Chain.nil
      | cons t ts =>
        rw [List.chain_cons] at hchain ⊢
        exact ⟨hchain.2.1, hchain.2.2⟩
    rw [renderSpans, ih e (fun x hx => hwf x (List.mem_cons_of_mem _ hx)) hrest]
    simp only [List.nil_append, List.append_nil]
    rw [List.append_assoc, take_drop_glue fragment hse, take_drop_glue fragment hpos]

/-- C9: highlighting with empty opening and closing tags returns the fragment
unchanged — highlighting only inserts tag text and never drops, duplicates,
or reorders any character of the fragment. -/
theorem apply_highlight_empty_tags_id (fragment : List Char) (terms : List (List Char)) :
    apply_highlight fragment terms [] [] = fragment := by
  rw [apply_highlight]
  split
  · rfl
  split
  · rfl
  have hperm := List.perm_insertionSort spanLe (highlightSpans fragment terms)
  have hwf : ∀ a ∈ sortSpans (highlightSpans fragment terms), a.1 ≤ a.2 := by
    intro a ha
    exact highlightSpans_start_le_end fragment terms a (hperm.mem_iff.mp ha)
  have hpw : (sortSpans (highlightSpans fragment terms)).Pairwise
      (fun a b => ¬ (a.1 < b.2 ∧ b.1 < a.2)) := by
    refine (hperm.pairwise_iff ?_).mpr (highlight_spans_no_overlap fragment terms)
    intro a b hab
    omega
  have hsorted : (sortSpans (highlightSpans fragment terms)).Sorted spanLe :=
    List.sorted_insertionSort spanLe (highlightSpans fragment terms)
  have hchain := sorted_spans_chain _ hsorted hpw hwf
  have hchain0 : List.Chain (fun a b : Nat × Nat => a.2 ≤ b.1) (0, 0)
      (sortSpans (highlightSpans fragment terms)) := by
    cases hl : sortSpans (highlightSpans fragment terms) with
    | nil => exact List.Chain.nil
    | cons a t =>
      rw [hl] at hchain
      exact List.Chain.cons (by omega) hchain
  rw [renderSpans_nil_tags fragment _ 0 hwf hchain0, List.drop_zero]

/-! ## The longest-term-first example (C6) -/

/-- C6: `applyHighlight("hello world test", ["hello world", "hello"], "<em>",
"</em>")` returns exactly `"<em>hello world</em> test"` with exactly one
accepted span `[0, 11)`: the longer term `"hello world"` is matched first and
the contained `"hello"` is rejected because it overlaps that span. -/
theorem apply_highlight_longest_wins_example :
    apply_highlight ("hello world test".data) ["hello world".data, "hello".data]
        ("<em>".data) ("</em>".data) = ("<em>hello world</em> test".data) ∧
    highlightSpans ("hello world test".data) ["hello world".data, "hello".data]
      = [(0, 11)] := by
  constructor
  · decide
  · decide

/-! ## Collected match positions lie inside the scan window -/

/-- Every position the collection loop adds lies strictly below the scan
limit. -/
theorem collectTermPositions_lt (tl tml : List Char) (scanLimit cap : Nat) :
    ∀ (fuel pos : Nat) (acc : List Nat), (∀ a ∈ acc, a < scanLimit) →
      ∀ a ∈ collectTermPositions tl tml scanLimit cap fuel pos acc, a < scanLimit := by
  intro fuel
  induction fuel with
  | zero => intro pos acc h; exact h
  | succ n ih =>
    intro pos acc h
    rw [collectTermPositions]
    split
    · next hcond =>
      cases hf : findFrom tl tml pos scanLimit with
      | none => simpa [hf] using h
      | some idx =>
        simp only [hf]
        apply ih
        have hidx : idx < scanLimit := by
          obtain ⟨h1, h2, _⟩ := findFrom_some hf
          cases html : tml with
          | nil =>
            rw [html] at hf
            have := findFrom_nil_some hf
            omega
          | cons c cs =>
            rw [html] at h2
            simp only [List.length_cons] at h2
            omega
        intro a ha
        split at ha
        · exact h a ha
        · rcases List.mem_append.mp ha with ha | ha
          · exact h a ha
          · simp only [List.mem_singleton] at ha
            omega
    · exact h

/-- All collected match positions lie strictly below the scan limit. -/
theorem collectPositions_lt (tl : List Char) (terms : List (List Char))
    (scanLimit cap : Nat) :
    ∀ a ∈ collectPositions tl terms scanLimit cap, a < scanLimit := by
  unfold collectPositions
  have main : ∀ (ts : List (List Char)) (acc : List Nat),
      (∀ a ∈ acc, a < scanLimit) →
      ∀ a ∈ ts.foldl
        (fun acc term =>
          collectTermPositions tl (lowerList term) scanLimit cap scanLimit 0 acc)
        acc, a < scanLimit := by
    intro ts
    induction ts with
    | nil => intro acc h; exact h
    | cons t ts ih =>
      intro acc h
      exact ih _ (collectTermPositions_lt tl (lowerList t) scanLimit cap scanLimit 0 acc h)
  exact main terms [] (by simp)

/-! ## The window chain invariant (C1) -/

/-- The windows built around match positions inside the text form a chain:
each accepted window is non-empty, starts at or after `lastEnd`, and each
later window starts at or after the previous window's end (hence strictly
after its start). -/
theorem buildWindows_chain (textLen sizeChars maxFrag : Nat) (hsize : 1 ≤ sizeChars) :
    ∀ (ps : List Nat) (lastEnd : Int) (count : Nat), (∀ p ∈ ps, p < textLen) →
      (buildWindows textLen sizeChars maxFrag ps lastEnd count).Chain'
        (fun a b => a.1 < b.1 ∧ a.2 ≤ b.1) ∧
      ∀ w ∈ buildWindows textLen sizeChars maxFrag ps lastEnd count,
        lastEnd ≤ (w.1 : Int) ∧ w.1 < w.2 := by
  intro ps
  induction ps with
  | nil => intro lastEnd count _; simp [buildWindows]
  | cons p rest ih =>
    intro lastEnd count hp
    have hplt : p < textLen := hp p (by simp)
    have hrest : ∀ q ∈ rest, q < textLen := fun q hq => hp q (by simp [hq])
    simp only [buildWindows]
    generalize hwe : min textLen (p - sizeChars / 2 + sizeChars) = we
    generalize hws : (if we - (p - sizeChars / 2) < sizeChars then we - sizeChars
      else p - sizeChars / 2) = ws
    have hlt : ws < we := by
      split at hws <;> omega
    split
    · exact ih lastEnd count hrest
    · next hskip =>
      have hle : lastEnd ≤ (ws : Int) := by omega
      split
      · refine ⟨by simp, ?_⟩
        intro w hw
        simp only [List.mem_singleton] at hw
        subst hw
        exact ⟨hle, hlt⟩
      · obtain ⟨ihc, ihm⟩ := ih (we : Int) (count + 1) hrest
        constructor
        · rw [List.chain'_cons']
          refine ⟨?_, ihc⟩
          intro y hy
          have hm := ihm y (List.mem_of_mem_head? hy)
          have : we ≤ y.1 := by exact_mod_cast hm.1
          exact ⟨by omega, by omega⟩
        · intro w hw
          rcases List.mem_cons.mp hw with hw | hw
          · subst hw
            exact ⟨hle, hlt⟩
          · have hm := ihm w hw
            have : we ≤ w.1 := by exact_mod_cast hm.1
            refine ⟨?_, hm.2⟩
            omega

/-- C1: for every snippet-generation call satisfying the preconditions whose
match scan finds at least one position, the accepted window sequence is
strictly ordered by start offset and every window after the first starts at
or after the previous accepted window's end (no overlap; adjacency
allowed). -/
theorem snippet_windows_ordered_disjoint (text : List Char)
    (queryTerms : List (List Char)) (sizeChars maxFragments scanMaxChars : Nat)
    (htext : text ≠ []) (hterms : queryTerms ≠ []) (hsize : 1 ≤ sizeChars)
    (hfrag : 1 ≤ maxFragments) (hscan : 1 ≤ scanMaxChars)
    (hpos : snippetMatchPositions text queryTerms maxFragments scanMaxChars ≠ []) :
    (snippetWindows text queryTerms sizeChars maxFragments scanMaxChars).Chain'
      (fun a b => a.1 < b.1 ∧ a.2 ≤ b.1) := by
  unfold snippetWindows
  refine (buildWindows_chain text.length sizeChars maxFragments hsize _ (-1) 0 ?_).1
  intro q hq
  have hq' : q ∈ snippetMatchPositions text queryTerms maxFragments scanMaxChars :=
    (List.perm_insertionSort _ _).mem_iff.mp hq
  have := collectPositions_lt (lowerList text) queryTerms
    (min text.length scanMaxChars) (maxFragments * 5) q hq'
  omega

/-- Witness for C1 at a concrete input: text `"fox one fox two fox three fox
four"`, term `"fox"`, window size 8, three fragments, scan cap 1000. -/
theorem snippet_windows_ordered_disjoint_witness :
    (snippetWindows ("fox one fox two fox three fox four".data) ["fox".data] 8 3 1000).Chain'
      (fun a b => a.1 < b.1 ∧ a.2 ≤ b.1) :=
  snippet_windows_ordered_disjoint _ _ _ _ _ (by decide) (by decide) (by decide)
    (by decide) (by decide) (by decide)

/-! ## Non-empty output for non-empty text (C10) -/

/-- With `lastEnd` still at its initial `-1`, the first match position is
always accepted, so the window list is non-empty. -/
theorem buildWindows_ne_nil (textLen sizeChars maxFrag : Nat) (p : Nat)
    (rest : List Nat) (lastEnd : Int) (count : Nat) (hneg : lastEnd < 0) :
    buildWindows textLen sizeChars maxFrag (p :: rest) lastEnd count ≠ [] := by
  simp only [buildWindows]
  generalize (if min textLen (p - sizeChars / 2 + sizeChars) - (p - sizeChars / 2) < sizeChars
    then min textLen (p - sizeChars / 2 + sizeChars) - sizeChars
    else p - sizeChars / 2) = ws
  split
  · next hlt =>
    have : (0 : Int) ≤ (ws : Int) := Int.ofNat_nonneg ws
    omega
  · split
    · simp
    · simp

/-- C10: for every non-empty text and every term list, snippet generation
with positive parameters returns at least one snippet — the first collected
match position is always accepted as a window, and the no-terms and no-match
paths each return exactly one fallback snippet.  An empty result occurs only
for empty text. -/
theorem generate_snippets_nonempty (text : List Char) (queryTerms : List (List Char))
    (sizeChars maxFragments : Nat) (tagPre tagPost : List Char) (scanMaxChars : Nat)
    (htext : text ≠ []) (hsize : 1 ≤ sizeChars) (hfrag : 1 ≤ maxFragments)
    (hscan : 1 ≤ scanMaxChars) :
    1 ≤ (generate_snippets text queryTerms sizeChars maxFragments
      tagPre tagPost scanMaxChars).length := by
  rw [generate_snippets, if_neg htext]
  split
  · simp
  · split
    · simp
    · next hpos =>
      rw [List.length_map]
      unfold snippetWindows
      cases hs : List.insertionSort (fun a b => a ≤ b)
          (snippetMatchPositions text queryTerms maxFragments scanMaxChars) with
      | nil =>
        exfalso
        apply hpos
        have := (List.perm_insertionSort (fun a b : Nat => a ≤ b)
          (snippetMatchPositions text queryTerms maxFragments scanMaxChars)).length_eq
        rw [hs] at this
        exact List.length_eq_zero.mp this.symm
      | cons q qs =>
        have := buildWindows_ne_nil text.length sizeChars maxFragments q qs (-1) 0
          (by omega)
        cases hb : buildWindows text.length sizeChars maxFragments (q :: qs) (-1) 0 with
        | nil => exact absurd hb this
        | cons w ws => simp

/-- Witness for C10 at a concrete input. -/
theorem generate_snippets_nonempty_witness :
    1 ≤ (generate_snippets ("The quick brown fox".data) ["missing".data] 10 2
      ("<em>".data) ("</em>".data) 1000).length :=
  generate_snippets_nonempty _ _ _ _ _ _ _ (by decide) (by decide) (by decide) (by decide)

/-! ## The scan-window cap and the fallback snippet (C7) -/

/-- When the term has no occurrence below the scan limit, the collection loop
adds nothing. -/
theorem collectTermPositions_no_occ (tl tml : List Char) (scanLimit cap : Nat)
    (hno : ∀ i < scanLimit, substrAt tl tml i = false) :
    ∀ (fuel pos : Nat) (acc : List Nat),
      collectTermPositions tl tml scanLimit cap fuel pos acc = acc := by
  intro fuel
  induction fuel with
  | zero => intro pos acc; rfl
  | succ n ih =>
    intro pos acc
    rw [collectTermPositions]
    split
    · next hcond =>
      cases hf : findFrom tl tml pos scanLimit with
      | none => simp [hf]
      | some idx =>
        exfalso
        obtain ⟨h1, h2, h3⟩ := findFrom_some hf
        cases html : tml with
        | nil =>
          rw [html] at hf
          have heq := findFrom_nil_some hf
          subst heq
          rw [html, substrAt_nil] at h3
          have := hno idx hcond.1
          rw [html] at this
          rw [substrAt_nil] at this
          exact Bool.true_eq_false.mp this
        | cons c cs =>
          have hidx : idx < scanLimit := by
            rw [html] at h2
            simp only [List.length_cons] at h2
            omega
          have := hno idx hidx
          rw [this] at h3
          exact Bool.false_ne_true h3
    · rfl

/-- When no term occurs below the scan limit, no match position is
collected. -/
theorem collectPositions_no_occ (tl : List Char) (terms : List (List Char))
    (scanLimit cap : Nat)
    (hno : ∀ t ∈ terms, ∀ i < scanLimit, substrAt tl (lowerList t) i = false) :
    collectPositions tl terms scanLimit cap = [] := by
  unfold collectPositions
  induction terms with
  | nil => rfl
  | cons t ts ih =>
    rw [List.foldl_cons,
      collectTermPositions_no_occ tl (lowerList t) scanLimit cap
        (hno t (by simp)) scanLimit 0 []]
    exact ih (fun u hu i hi => hno u (by simp [hu]) i hi)

/-- C7: when every occurrence of every term starts at or beyond the scan
window (the prefix of length `min(len(text), scanMaxChars)`), the snippet
generator finds no match positions and returns the single fallback snippet:
the first `windowSizeChars` characters of `text` with a trailing ellipsis iff
the text is longer. -/
theorem scan_cap_fallback (text : List Char) (queryTerms : List (List Char))
    (sizeChars maxFragments : Nat) (tagPre tagPost : List Char) (scanMaxChars : Nat)
    (htext : text ≠ [])
    (hocc : ∀ t ∈ queryTerms, ∀ i < min text.length scanMaxChars,
      substrAt (lowerList text) (lowerList t) i = false) :
    snippetMatchPositions text queryTerms maxFragments scanMaxChars = [] ∧
    generate_snippets text queryTerms sizeChars maxFragments tagPre tagPost scanMaxChars
      = [fallbackSnippet text sizeChars] := by
  have hpos : snippetMatchPositions text queryTerms maxFragments scanMaxChars = [] := by
    unfold snippetMatchPositions
    exact collectPositions_no_occ _ _ _ _ hocc
  refine ⟨hpos, ?_⟩
  rw [generate_snippets, if_neg htext]
  by_cases hq : queryTerms = []
  · rw [if_pos hq]
  · rw [if_neg hq, if_pos hpos]

set_option maxRecDepth 20000 in
/-- Witness for C7 at the spec's concrete input: `"A"*100 + "target" +
"A"*100` with term `"target"`, window 20, one fragment, scan cap 50 — the
match at offset 100 lies beyond the 50-character scan window, so the result
is the start-of-text fallback snippet (which does not contain the highlighted
term). -/
theorem scan_cap_fallback_witness :
    generate_snippets (List.replicate 100 'A' ++ "target".data ++ List.replicate 100 'A')
      ["target".data] 20 1 ("<em>".data) ("</em>".data) 50
      = [fallbackSnippet
          (List.replicate 100 'A' ++ "target".data ++ List.replicate 100 'A') 20] :=
  (scan_cap_fallback _ _ _ _ _ _ _ (by decide) (by decide)).2

/-! ## Validation and clamping of snippet arguments (C8) -/

/-- An invalid `snippet_size_chars` is rejected with the message naming it. -/
theorem clampSizeChars_invalid (limits : SnippetLimits) {raw : Option PyVal}
    (h : paramInvalid raw = true) :
    clampSizeChars limits raw = .error "snippet_size_chars must be a positive integer" := by
  cases raw with
  | none => simp [paramInvalid] at h
  | some v =>
    cases v with
    | notInt => rfl
    | int n =>
      simp only [paramInvalid, decide_eq_true_eq] at h
      simp [clampSizeChars, h]

/-- An invalid `snippet_fragments` is rejected with the message naming it. -/
theorem clampFragments_invalid (limits : SnippetLimits) {raw : Option PyVal}
    (h : paramInvalid raw = true) :
    clampFragments limits raw = .error "snippet_fragments must be a positive integer" := by
  cases raw with
  | none => simp [paramInvalid] at h
  | some v =>
    cases v with
    | notInt => rfl
    | int n =>
      simp only [paramInvalid, decide_eq_true_eq] at h
      simp [clampFragments, h]

/-- An invalid `snippet_docs` is rejected with the message naming it. -/
theorem clampDocs_invalid (limits : SnippetLimits) {raw : Option PyVal}
    (h : paramInvalid raw = true) :
    clampDocs limits raw = .error "snippet_docs must be a positive integer" := by
  cases raw with
  | none => simp [paramInvalid] at h
  | some v =>
    cases v with
    | notInt => rfl
    | int n =>
      simp only [paramInvalid, decide_eq_true_eq] at h
      simp [clampDocs, h]

/-- An invalid `snippet_scan_max_chars` is rejected with the message naming
it. -/
theorem clampScanMaxChars_invalid (limits : SnippetLimits) {raw : Option PyVal}
    (h : paramInvalid raw = true) :
    clampScanMaxChars limits raw
      = .error "snippet_scan_max_chars must be a positive integer" := by
  cases raw with
  | none => simp [paramInvalid] at h
  | some v =>
    cases v with
    | notInt => rfl
    | int n =>
      simp only [paramInvalid, decide_eq_true_eq] at h
      simp [clampScanMaxChars, h]

/-- A valid (absent or positive-int) `snippet_size_chars` never raises. -/
theorem clampSizeChars_valid (limits : SnippetLimits) {raw : Option PyVal}
    (h : paramInvalid raw = false) :
    ∃ v c, clampSizeChars limits raw = .ok (v, c) := by
  cases raw with
  | none => exact ⟨_, _, rfl⟩
  | some v =>
    cases v with
    | notInt => simp [paramInvalid] at h
    | int n =>
      simp only [paramInvalid, decide_eq_false_iff_not] at h
      simp only [clampSizeChars]
      rw [if_neg h]
      split
      · exact ⟨_, _, rfl⟩
      · split
        · exact ⟨_, _, rfl⟩
        · exact ⟨_, _, rfl⟩

/-- A valid (absent or positive-int) `snippet_fragments` never raises. -/
theorem clampFragments_valid (limits : SnippetLimits) {raw : Option PyVal}
    (h : paramInvalid raw = false) :
    ∃ v c, clampFragments limits raw = .ok (v, c) := by
  cases raw with
  | none => exact ⟨_, _, rfl⟩
  | some v =>
    cases v with
    | notInt => simp [paramInvalid] at h
    | int n =>
      simp only [paramInvalid, decide_eq_false_iff_not] at h
      simp only [clampFragments]
      rw [if_neg h]
      split
      · exact ⟨_, _, rfl⟩
      · exact ⟨_, _, rfl⟩

/-- A valid (absent or positive-int) `snippet_docs` never raises. -/
theorem clampDocs_valid (limits : SnippetLimits) {raw : Option PyVal}
    (h : paramInvalid raw = false) :
    ∃ v c, clampDocs limits raw = .ok (v, c) := by
  cases raw with
  | none => exact ⟨_, _, rfl⟩
  | some v =>
    cases v with
    | notInt => simp [paramInvalid] at h
    | int n =>
      simp only [paramInvalid, decide_eq_false_iff_not] at h
      simp only [clampDocs]
      rw [if_neg h]
      split
      · exact ⟨_, _, rfl⟩
      · exact ⟨_, _, rfl⟩

/-- A valid (absent or positive-int) `snippet_scan_max_chars` never raises. -/
theorem clampScanMaxChars_valid (limits : SnippetLimits) {raw : Option PyVal}
    (h : paramInvalid raw = false) :
    ∃ v c, clampScanMaxChars limits raw = .ok (v, c) := by
  cases raw with
  | none => exact ⟨_, _, rfl⟩
  | some v =>
    cases v with
    | notInt => simp [paramInvalid] at h
    | int n =>
      simp only [paramInvalid, decide_eq_false_iff_not] at h
      simp only [clampScanMaxChars]
      rw [if_neg h]
      split
      · exact ⟨_, _, rfl⟩
      · exact ⟨_, _, rfl⟩

/-- A positive `snippet_fragments` above the configured maximum is clamped to
that maximum, not rejected. -/
theorem clampFragments_clamps (limits : SnippetLimits) {n : Int} (h1 : 1 ≤ n)
    (h2 : limits.snippetMaxFragments < n) :
    clampFragments limits (some (.int n)) = .ok (limits.snippetMaxFragments, true) := by
  simp only [clampFragments]
  rw [if_neg (by omega), if_pos h2]

/-- A positive `snippet_docs` above the configured maximum is clamped to that
maximum, not rejected. -/
theorem clampDocs_clamps (limits : SnippetLimits) {n : Int} (h1 : 1 ≤ n)
    (h2 : limits.snippetMaxDocs < n) :
    clampDocs limits (some (.int n)) = .ok (limits.snippetMaxDocs, true) := by
  simp only [clampDocs]
  rw [if_neg (by omega), if_pos h2]

/-- A positive `snippet_scan_max_chars` above the configured cap is clamped
to the cap, not rejected. -/
theorem clampScanMaxChars_clamps (limits : SnippetLimits) {n : Int} (h1 : 1 ≤ n)
    (h2 : limits.snippetScanMaxChars < n) :
    clampScanMaxChars limits (some (.int n)) = .ok (limits.snippetScanMaxChars, true) := by
  simp only [clampScanMaxChars]
  rw [if_neg (by omega), if_pos h2]

/-- A positive `snippet_size_chars` below the configured minimum is clamped
up to the minimum, not rejected. -/
theorem clampSizeChars_clamps_min (limits : SnippetLimits) {n : Int} (h1 : 1 ≤ n)
    (h2 : n < limits.snippetMinChars) :
    clampSizeChars limits (some (.int n)) = .ok (limits.snippetMinChars, true) := by
  simp only [clampSizeChars]
  rw [if_neg (by omega), if_pos h2]

/-- A positive `snippet_size_chars` above the configured maximum is clamped
down to the maximum, not rejected. -/
theorem clampSizeChars_clamps_max (limits : SnippetLimits) {n : Int} (h1 : 1 ≤ n)
    (hmin : limits.snippetMinChars ≤ n) (h2 : limits.snippetMaxChars < n) :
    clampSizeChars limits (some (.int n)) = .ok (limits.snippetMaxChars, true) := by
  simp only [clampSizeChars]
  rw [if_neg (by omega), if_neg (by omega), if_pos h2]

/-- Successful validation decomposes into the four per-parameter clamp
results. -/
theorem validate_ok_inv (limits : SnippetLimits) (args : SnippetArgs)
    (eff : EffectiveSnippetParams)
    (hok : validate_and_clamp_snippet_args limits args = .ok eff) :
    ∃ s c1 f c2 d c3 sc c4,
      clampSizeChars limits args.snippet_size_chars = .ok (s, c1) ∧
      clampFragments limits args.snippet_fragments = .ok (f, c2) ∧
      clampDocs limits args.snippet_docs = .ok (d, c3) ∧
      clampScanMaxChars limits args.snippet_scan_max_chars = .ok (sc, c4) ∧
      eff.sizeChars = s ∧ eff.fragments = f ∧ eff.docs = d ∧ eff.scanMaxChars = sc := by
  unfold validate_and_clamp_snippet_args at hok
  cases h1 : clampSizeChars limits args.snippet_size_chars with
  | error m => rw [h1] at hok; simp at hok
  | ok p1 =>
    obtain ⟨s, c1⟩ := p1
    rw [h1] at hok
    cases h2 : clampFragments limits args.snippet_fragments with
    | error m => rw [h2] at hok; simp at hok
    | ok p2 =>
      obtain ⟨f, c2⟩ := p2
      rw [h2] at hok
      cases h3 : clampDocs limits args.snippet_docs with
      | error m => rw [h3] at hok; simp at hok
      | ok p3 =>
        obtain ⟨d, c3⟩ := p3
        rw [h3] at hok
        cases h4 : clampScanMaxChars limits args.snippet_scan_max_chars with
        | error m => rw [h4] at hok; simp at hok
        | ok p4 =>
          obtain ⟨sc, c4⟩ := p4
          rw [h4] at hok
          simp only [Except.ok.injEq] at hok
          subst hok
          exact ⟨s, c1, f, c2, d, c3, sc, c4, rfl, rfl, rfl, rfl, rfl, rfl, rfl, rfl⟩

/-- C8: a supplied non-positive or non-integer numeric snippet parameter is
rejected with an invalid-argument message identifying that parameter and its
constraint, before any document text is scanned (the error is produced by the
validator alone, uniformly in the query and the document texts); supplied
values that are positive but outside configured bounds are clamped to the
violated bound, not rejected. -/
theorem snippet_args_validation (limits : SnippetLimits) (args : SnippetArgs)
    (query : List Char) (docTexts : List (List Char)) :
    ((paramInvalid args.snippet_size_chars || paramInvalid args.snippet_fragments ||
      paramInvalid args.snippet_docs || paramInvalid args.snippet_scan_max_chars) = true →
      enrichHitsWithSnippets limits args query docTexts
        = .error (firstInvalidParamName args ++ " must be a positive integer")) ∧
    ((paramInvalid args.snippet_size_chars || paramInvalid args.snippet_fragments ||
      paramInvalid args.snippet_docs || paramInvalid args.snippet_scan_max_chars) = false →
      (validate_and_clamp_snippet_args limits args).isOk = true) ∧
    (∀ eff n, validate_and_clamp_snippet_args limits args = .ok eff →
      args.snippet_fragments = some (.int n) → 1 ≤ n → limits.snippetMaxFragments < n →
      eff.fragments = limits.snippetMaxFragments) ∧
    (∀ eff n, validate_and_clamp_snippet_args limits args = .ok eff →
      args.snippet_docs = some (.int n) → 1 ≤ n → limits.snippetMaxDocs < n →
      eff.docs = limits.snippetMaxDocs) ∧
    (∀ eff n, validate_and_clamp_snippet_args limits args = .ok eff →
      args.snippet_scan_max_chars = some (.int n) → 1 ≤ n → limits.snippetScanMaxChars < n →
      eff.scanMaxChars = limits.snippetScanMaxChars) ∧
    (∀ eff n, validate_and_clamp_snippet_args limits args = .ok eff →
      args.snippet_size_chars = some (.int n) → 1 ≤ n → n < limits.snippetMinChars →
      eff.sizeChars = limits.snippetMinChars) ∧
    (∀ eff n, validate_and_clamp_snippet_args limits args = .ok eff →
      args.snippet_size_chars = some (.int n) → limits.snippetMinChars ≤ n →
      limits.snippetMaxChars < n → 1 ≤ n →
      eff.sizeChars = limits.snippetMaxChars) := by
  refine ⟨?_, ?_, ?_, ?_, ?_, ?_, ?_⟩
  · intro h
    unfold enrichHitsWithSnippets validate_and_clamp_snippet_args firstInvalidParamName
    by_cases h1 : paramInvalid args.snippet_size_chars = true
    · rw [clampSizeChars_invalid limits h1, if_pos h1]
      rfl
    · rw [if_neg h1]
      rw [Bool.not_eq_true] at h1
      obtain ⟨v1, c1, hv1⟩ := clampSizeChars_valid limits h1
      rw [hv1]
      by_cases h2 : paramInvalid args.snippet_fragments = true
      · rw [clampFragments_invalid limits h2, if_pos h2]
        rfl
      · rw [if_neg h2]
        rw [Bool.not_eq_true] at h2
        obtain ⟨v2, c2, hv2⟩ := clampFragments_valid limits h2
        rw [hv2]
        by_cases h3 : paramInvalid args.snippet_docs = true
        · rw [clampDocs_invalid limits h3, if_pos h3]
          rfl
        · rw [if_neg h3]
          rw [Bool.not_eq_true] at h3
          obtain ⟨v3, c3, hv3⟩ := clampDocs_valid limits h3
          rw [hv3]
          have h4 : paramInvalid args.snippet_scan_max_chars = true := by
            rw [h1, h2, h3] at h
            simpa using h
          rw [clampScanMaxChars_invalid limits h4]
          rfl
  · intro h
    simp only [Bool.or_eq_false_iff] at h
    obtain ⟨⟨⟨h1, h2⟩, h3⟩, h4⟩ := h
    unfold validate_and_clamp_snippet_args
    obtain ⟨v1, c1, hv1⟩ := clampSizeChars_valid limits h1
    obtain ⟨v2, c2, hv2⟩ := clampFragments_valid limits h2
    obtain ⟨v3, c3, hv3⟩ := clampDocs_valid limits h3
    obtain ⟨v4, c4, hv4⟩ := clampScanMaxChars_valid limits h4
    rw [hv1, hv2, hv3, hv4]
    rfl
  · intro eff n hok hargs h1 h2
    obtain ⟨s, c1, f, c2, d, c3, sc, c4, _, hf, _, _, _, heff, _, _⟩ :=
      validate_ok_inv limits args eff hok
    rw [hargs, clampFragments_clamps limits h1 h2] at hf
    simp only [Except.ok.injEq, Prod.mk.injEq] at hf
    rw [heff, ← hf.1]
  · intro eff n hok hargs h1 h2
    obtain ⟨s, c1, f, c2, d, c3, sc, c4, _, _, hd, _, _, _, heff, _⟩ :=
      validate_ok_inv limits args eff hok
    rw [hargs, clampDocs_clamps limits h1 h2] at hd
    simp only [Except.ok.injEq, Prod.mk.injEq] at hd
    rw [heff, ← hd.1]
  · intro eff n hok hargs h1 h2
    obtain ⟨s, c1, f, c2, d, c3, sc, c4, _, _, _, hsc, _, _, _, heff⟩ :=
      validate_ok_inv limits args eff hok
    rw [hargs, clampScanMaxChars_clamps limits h1 h2] at hsc
    simp only [Except.ok.injEq, Prod.mk.injEq] at hsc
    rw [heff, ← hsc.1]
  · intro eff n hok hargs h1 h2
    obtain ⟨s, c1, f, c2, d, c3, sc, c4, hs, _, _, _, heff, _, _, _⟩ :=
      validate_ok_inv limits args eff hok
    rw [hargs, clampSizeChars_clamps_min limits h1 h2] at hs
    simp only [Except.ok.injEq, Prod.mk.injEq] at hs
    rw [heff, ← hs.1]
  · intro eff n hok hargs h1 h2 h3
    obtain ⟨s, c1, f, c2, d, c3, sc, c4, hs, _, _, _, heff, _, _, _⟩ :=
      validate_ok_inv limits args eff hok
    rw [hargs, clampSizeChars_clamps_max limits h3 h1 h2] at hs
    simp only [Except.ok.injEq, Prod.mk.injEq] at hs
    rw [heff, ← hs.1]

/-- Witness for C8: with limits `⟨100, 20, 500, 3, 5, 5, 10, 20000⟩`, a
non-integer `snippet_size_chars` is rejected with the message naming it
(uniformly in the documents, which are never scanned), while a request with
`snippet_fragments = 100 > 5` validates successfully and is clamped to 5. -/
theorem snippet_args_validation_witness :
    enrichHitsWithSnippets ⟨100, 20, 500, 3, 5, 5, 10, 20000⟩
        ⟨some .notInt, none, none, none, none, none⟩ ("q".data) [("doc".data)]
      = .error ("snippet_size_chars must be a positive integer") ∧
    (validate_and_clamp_snippet_args ⟨100, 20, 500, 3, 5, 5, 10, 20000⟩
        ⟨some (.int 30), some (.int 100), none, none, none, none⟩).isOk = true ∧
    (⟨30, 5, 5, 20000, "<em>".data, "</em>".data, true⟩ :
        EffectiveSnippetParams).fragments = 5 := by
  refine ⟨?_, ?_, ?_⟩
  · exact (snippet_args_validation _ _ _ _).1 (by decide)
  · exact (snippet_args_validation _ _ ("q".data) []).2.1 (by decide)
  · exact (snippet_args_validation ⟨100, 20, 500, 3, 5, 5, 10, 20000⟩
      ⟨some (.int 30), some (.int 100), none, none, none, none⟩ ("q".data) []).2.2.1
      ⟨30, 5, 5, 20000, "<em>".data, "</em>".data, true⟩ 100 rfl rfl
      (by decide) (by decide)

/-! ## UTF-8-safe truncation (C4, C5) -/

/-- The validity invariant of `Char`, in `Nat` form: below the surrogate
range, or between it and `0x110000`. -/
theorem char_toNat_valid (c : Char) :
    c.toNat < 55296 ∨ (57343 < c.toNat ∧ c.toNat < 1114112) := c.valid

/-- Every result of `utf8DecodeIgnoreF` on the empty byte list is empty. -/
theorem decodeF_nil : ∀ fuel : Nat, utf8DecodeIgnoreF fuel [] = []
  | 0 => rfl
  | _ + 1 => rfl

/-- The decoder's result does not depend on the fuel once the fuel covers the
list length: every step consumes at least one byte. -/
theorem utf8DecodeIgnoreF_fuel_irrelevant :
    ∀ (fuel fuel' : Nat) (l : List Nat), l.length ≤ fuel → l.length ≤ fuel' →
      utf8DecodeIgnoreF fuel l = utf8DecodeIgnoreF fuel' l := by
  intro fuel
  induction fuel with
  | zero =>
    intro fuel' l h _
    have hl : l = [] := List.length_eq_zero.mp (Nat.le_zero.mp h)
    subst hl
    rw [decodeF_nil, decodeF_nil]
  | succ n ih =>
    intro fuel' l h h'
    cases l with
    | nil => rw [decodeF_nil, decodeF_nil]
    | cons b0 rest =>
      cases fuel' with
      | zero => simp at h'
      | succ m =>
        simp only [List.length_cons] at h h'
        simp only [utf8DecodeIgnoreF]
        split
        · exact congrArg _ (ih m rest (by omega) (by omega))
        · split
          · exact ih m rest (by omega) (by omega)
          · split
            · split
              · rfl
              · split
                · exact congrArg _ (ih m _ (by simp only [List.length_cons, List.length_nil] at *; omega) (by simp only [List.length_cons, List.length_nil] at *; omega))
                · exact ih m _ (by simp only [List.length_cons, List.length_nil] at *; omega) (by simp only [List.length_cons, List.length_nil] at *; omega)
            · split
              · split
                · rfl
                · exact ih m _ (by simp only [List.length_cons, List.length_nil] at *; omega) (by simp only [List.length_cons, List.length_nil] at *; omega)
                · split
                  · exact congrArg _ (ih m _ (by simp only [List.length_cons, List.length_nil] at *; omega) (by simp only [List.length_cons, List.length_nil] at *; omega))
                  · exact ih m _ (by simp only [List.length_cons, List.length_nil] at *; omega) (by simp only [List.length_cons, List.length_nil] at *; omega)
              · split
                · split
                  · rfl
                  · exact ih m _ (by simp only [List.length_cons, List.length_nil] at *; omega) (by simp only [List.length_cons, List.length_nil] at *; omega)
                  · exact ih m _ (by simp only [List.length_cons, List.length_nil] at *; omega) (by simp only [List.length_cons, List.length_nil] at *; omega)
                  · split
                    · exact congrArg _ (ih m _ (by simp only [List.length_cons, List.length_nil] at *; omega) (by simp only [List.length_cons, List.length_nil] at *; omega))
                    · exact ih m _ (by simp only [List.length_cons, List.length_nil] at *; omega) (by simp only [List.length_cons, List.length_nil] at *; omega)
                · exact ih m rest (by omega) (by omega)

/-- Decoding a correctly encoded scalar consumes exactly its bytes and one
step of fuel, and recovers the character. -/
theorem decodeF_encodeChar (c : Char) (rest : List Nat) (fuel : Nat) :
    utf8DecodeIgnoreF (fuel + 1) (encodeChar c ++ rest)
      = c :: utf8DecodeIgnoreF fuel rest := by
  have hv := char_toNat_valid c
  by_cases h1 : c.toNat < 128
  · simp only [encodeChar, if_pos h1, List.cons_append, List.nil_append]
    simp only [utf8DecodeIgnoreF, if_pos h1]
    rw [Char.ofNat_toNat]
  · by_cases h2 : c.toNat < 2048
    · simp only [encodeChar, if_neg h1, if_pos h2, List.cons_append, List.nil_append]
      simp only [utf8DecodeIgnoreF]
      rw [if_neg (by omega), if_neg (by omega), if_pos (by omega),
        if_pos (by simp only [isContByte, Bool.and_eq_true, decide_eq_true_eq]; omega)]
      have harith : (192 + c.toNat / 64 - 192) * 64 + (128 + c.toNat % 64 - 128)
          = c.toNat := by omega
      rw [harith, Char.ofNat_toNat]
    · by_cases h3 : c.toNat < 65536
      · simp only [encodeChar, if_neg h1, if_neg h2, if_pos h3, List.cons_append,
          List.nil_append]
        simp only [utf8DecodeIgnoreF]
        rw [if_neg (by omega), if_neg (by omega), if_neg (by omega), if_pos (by omega),
          if_pos ?_]
        · have harith : (224 + c.toNat / 4096 - 224) * 4096
              + (128 + c.toNat / 64 % 64 - 128) * 64 + (128 + c.toNat % 64 - 128)
              = c.toNat := by omega
          rw [harith, Char.ofNat_toNat]
        · simp only [isContByte, Bool.and_eq_true, Bool.not_eq_true', Bool.and_eq_false_iff,
            decide_eq_true_eq, decide_eq_false_iff_not]
          have harith : (224 + c.toNat / 4096 - 224) * 4096
              + (128 + c.toNat / 64 % 64 - 128) * 64 + (128 + c.toNat % 64 - 128)
              = c.toNat := by omega
          rw [harith]
          omega
      · simp only [encodeChar, if_neg h1, if_neg h2, if_neg h3, List.cons_append,
          List.nil_append]
        simp only [utf8DecodeIgnoreF]
        rw [if_neg (by omega), if_neg (by omega), if_neg (by omega), if_neg (by omega),
          if_pos (by omega), if_pos ?_]
        · have harith : (240 + c.toNat / 262144 - 240) * 262144
              + (128 + c.toNat / 4096 % 64 - 128) * 4096
              + (128 + c.toNat / 64 % 64 - 128) * 64 + (128 + c.toNat % 64 - 128)
              = c.toNat := by omega
          rw [harith, Char.ofNat_toNat]
        · simp only [isContByte, Bool.and_eq_true, decide_eq_true_eq]
          have harith : (240 + c.toNat / 262144 - 240) * 262144
              + (128 + c.toNat / 4096 % 64 - 128) * 4096
              + (128 + c.toNat / 64 % 64 - 128) * 64 + (128 + c.toNat % 64 - 128)
              = c.toNat := by omega
          rw [harith]
          omega

/-- A run of continuation-range bytes decodes to nothing: each is skipped. -/
theorem decodeF_contBytes :
    ∀ (fuel : Nat) (l : List Nat), (∀ b ∈ l, 128 ≤ b ∧ b < 194) →
      utf8DecodeIgnoreF fuel l = [] := by
  intro fuel
  induction fuel with
  | zero => intro l _; rfl
  | succ n ih =>
    intro l hl
    cases l with
    | nil => rfl
    | cons b rest =>
      have hb := hl b (by simp)
      simp only [utf8DecodeIgnoreF]
      rw [if_neg (by omega), if_pos (by omega)]
      exact ih rest (fun x hx => hl x (List.mem_cons_of_mem b hx))

/-- The encoding of one character takes between one and four bytes. -/
theorem encodeChar_length (c : Char) :
    1 ≤ (encodeChar c).length ∧ (encodeChar c).length ≤ 4 := by
  unfold encodeChar
  by_cases h1 : c.toNat < 128
  · simp [h1]
  · by_cases h2 : c.toNat < 2048
    · simp [h1, h2]
    · by_cases h3 : c.toNat < 65536
      · simp [h1, h2, h3]
      · simp [h1, h2, h3]

/-- A strict byte prefix of one character's encoding decodes to nothing: the
truncated lead is skipped and the remaining continuation bytes are skipped. -/
theorem decodeF_encodeChar_part (c : Char) (n fuel : Nat)
    (h : n < (encodeChar c).length) :
    utf8DecodeIgnoreF fuel ((encodeChar c).take n) = [] := by
  have hv := char_toNat_valid c
  by_cases h1 : c.toNat < 128
  · have hn : n = 0 := by
      simp only [encodeChar, if_pos h1, List.length_cons, List.length_nil] at h
      omega
    subst hn
    rw [List.take_zero, decodeF_nil]
  · by_cases h2 : c.toNat < 2048
    · simp only [encodeChar, if_neg h1, if_pos h2, List.length_cons, List.length_nil] at h ⊢
      interval_cases n
      · rw [List.take_zero, decodeF_nil]
      · simp only [List.take_succ_cons, List.take_zero]
        cases fuel with
        | zero => rfl
        | succ m =>
          simp only [utf8DecodeIgnoreF]
          rw [if_neg (by omega), if_neg (by omega), if_pos (by omega)]
    · by_cases h3 : c.toNat < 65536
      · simp only [encodeChar, if_neg h1, if_neg h2, if_pos h3, List.length_cons,
          List.length_nil] at h ⊢
        interval_cases n
        · rw [List.take_zero, decodeF_nil]
        · simp only [List.take_succ_cons, List.take_zero]
          cases fuel with
          | zero => rfl
          | succ m =>
            simp only [utf8DecodeIgnoreF]
            rw [if_neg (by omega), if_neg (by omega), if_neg (by omega), if_pos (by omega)]
        · simp only [List.take_succ_cons, List.take_zero]
          cases fuel with
          | zero => rfl
          | succ m =>
            simp only [utf8DecodeIgnoreF]
            rw [if_neg (by omega), if_neg (by omega), if_neg (by omega), if_pos (by omega)]
            exact decodeF_contBytes m _ (by intro b hb; simp only [List.mem_singleton] at hb; omega)
      · simp only [encodeChar, if_neg h1, if_neg h2, if_neg h3, List.length_cons,
          List.length_nil] at h ⊢
        interval_cases n
        · rw [List.take_zero, decodeF_nil]
        · simp only [List.take_succ_cons, List.take_zero]
          cases fuel with
          | zero => rfl
          | succ m =>
            simp only [utf8DecodeIgnoreF]
            rw [if_neg (by omega), if_neg (by omega), if_neg (by omega), if_neg (by omega),
              if_pos (by omega)]
        · simp only [List.take_succ_cons, List.take_zero]
          cases fuel with
          | zero => rfl
          | succ m =>
            simp only [utf8DecodeIgnoreF]
            rw [if_neg (by omega), if_neg (by omega), if_neg (by omega), if_neg (by omega),
              if_pos (by omega)]
            exact decodeF_contBytes m _ (by intro b hb; simp only [List.mem_singleton] at hb; omega)
        · simp only [List.take_succ_cons, List.take_zero]
          cases fuel with
          | zero => rfl
          | succ m =>
            simp only [utf8DecodeIgnoreF]
            rw [if_neg (by omega), if_neg (by omega), if_neg (by omega), if_neg (by omega),
              if_pos (by omega)]
            exact decodeF_contBytes m _
              (by intro b hb; simp only [List.mem_cons, List.not_mem_nil, or_false] at hb; rcases hb with hb | hb <;> omega)

/-- Encoding distributes over cons. -/
theorem utf8Encode_cons (c : Char) (s : List Char) :
    utf8Encode (c :: s) = encodeChar c ++ utf8Encode s := by
  simp [utf8Encode]

/-- Decoding a byte-truncated valid encoding yields exactly the longest
character prefix whose encoding fits the byte budget. -/
theorem decode_take_encode :
    ∀ (s : List Char) (n : Nat),
      utf8DecodeIgnore ((utf8Encode s).take n) = utf8TakeBytes s n := by
  intro s
  induction s with
  | nil =>
    intro n
    simp [utf8Encode, utf8TakeBytes, utf8DecodeIgnore, decodeF_nil]
  | cons c s' ih =>
    intro n
    rw [utf8Encode_cons]
    by_cases hn : (encodeChar c).length ≤ n
    · rw [List.take_append_eq_append_take, List.take_of_length_le hn]
      have hm1 : 1 ≤ (encodeChar c).length := (encodeChar_length c).1
      unfold utf8DecodeIgnore
      rw [List.length_append]
      have heq : (encodeChar c).length
            + ((utf8Encode s').take (n - (encodeChar c).length)).length
          = ((encodeChar c).length - 1
            + ((utf8Encode s').take (n - (encodeChar c).length)).length) + 1 := by
        omega
      rw [heq, decodeF_encodeChar,
        utf8DecodeIgnoreF_fuel_irrelevant _
          ((utf8Encode s').take (n - (encodeChar c).length)).length _ (by omega) (by omega)]
      have hih := ih (n - (encodeChar c).length)
      unfold utf8DecodeIgnore at hih
      rw [hih]
      conv_rhs => rw [utf8TakeBytes]
      rw [if_pos hn]
    · push_neg at hn
      rw [List.take_append_eq_append_take]
      have h0 : n - (encodeChar c).length = 0 := by omega
      rw [h0, List.take_zero, List.append_nil]
      unfold utf8DecodeIgnore
      rw [decodeF_encodeChar_part c n _ (by omega)]
      unfold utf8TakeBytes
      rw [if_neg (by omega)]

/-- `utf8TakeBytes` returns a character prefix. -/
theorem utf8TakeBytes_prefix :
    ∀ (s : List Char) (n : Nat), ∃ r, utf8TakeBytes s n ++ r = s := by
  intro s
  induction s with
  | nil => intro n; exact ⟨[], rfl⟩
  | cons c s' ih =>
    intro n
    unfold utf8TakeBytes
    split
    · obtain ⟨r, hr⟩ := ih (n - (encodeChar c).length)
      exact ⟨r, by rw [List.cons_append, hr]⟩
    · exact ⟨c :: s', rfl⟩

/-- The encoding of `utf8TakeBytes s n` fits in `n` bytes. -/
theorem utf8TakeBytes_byteLen :
    ∀ (s : List Char) (n : Nat), (utf8Encode (utf8TakeBytes s n)).length ≤ n := by
  intro s
  induction s with
  | nil => intro n; simp [utf8TakeBytes, utf8Encode]
  | cons c s' ih =>
    intro n
    unfold utf8TakeBytes
    split
    · next h =>
      rw [utf8Encode_cons, List.length_append]
      have := ih (n - (encodeChar c).length)
      omega
    · simp [utf8Encode]

/-- The string returned by truncation always fits the byte budget. -/
theorem truncate_byteLen (text : List Char) (maxBytes : Nat) :
    (utf8Encode (truncate_text_utf8_safe text maxBytes).1).length ≤ maxBytes := by
  unfold truncate_text_utf8_safe
  split
  · next h =>
    subst h
    simp [utf8Encode]
  · split
    · next h => simpa using h
    · rw [decode_take_encode]
      exact utf8TakeBytes_byteLen text maxBytes

/-- C4: for every string and byte budget, the string `truncateUtf8Safe`
returns is a prefix of the original string's character sequence and its UTF-8
byte length is at most the budget. -/
theorem truncate_prefix_within_budget (text : List Char) (maxBytes : Nat) :
    (∃ r, (truncate_text_utf8_safe text maxBytes).1 ++ r = text) ∧
    (utf8Encode (truncate_text_utf8_safe text maxBytes).1).length ≤ maxBytes := by
  refine ⟨?_, truncate_byteLen text maxBytes⟩
  unfold truncate_text_utf8_safe
  split
  · exact ⟨[], by simp⟩
  · split
    · exact ⟨[], by simp⟩
    · rw [decode_take_encode]
      exact utf8TakeBytes_prefix text maxBytes

/-- C5: truncating a second time with the same byte budget returns the first
result unchanged — the composed result equals the result of applying
`truncateUtf8Safe` once. -/
theorem truncate_idempotent (text : List Char) (maxBytes : Nat) :
    (truncate_text_utf8_safe (truncate_text_utf8_safe text maxBytes).1 maxBytes).1
      = (truncate_text_utf8_safe text maxBytes).1 := by
  have hb := truncate_byteLen text maxBytes
  obtain ⟨t, ht⟩ : ∃ t, (truncate_text_utf8_safe text maxBytes).1 = t := ⟨_, rfl⟩
  rw [ht] at hb ⊢
  unfold truncate_text_utf8_safe
  by_cases h0 : t = []
  · rw [if_pos h0]
  · rw [if_neg h0, if_pos hb]

/-! ## Character-level lemmas for the word-boundary model (C3) -/

/-- `Char.ofNat` on a valid scalar value round-trips through `toNat`. -/
theorem charToNat_ofNat {n : Nat} (h : n.isValidChar) : (Char.ofNat n).toNat = n := by
  unfold Char.ofNat
  rw [dif_pos h]
  rfl

/-- The code point of `Char.toLower`: shifted by 32 on `A`–`Z`, unchanged
otherwise. -/
theorem toLower_toNat (c : Char) :
    (Char.toLower c).toNat
      = if 65 ≤ c.toNat ∧ c.toNat ≤ 90 then c.toNat + 32 else c.toNat := by
  by_cases h : 65 ≤ c.toNat ∧ c.toNat ≤ 90
  · rw [if_pos h]
    have hc : Char.toLower c = Char.ofNat (c.toNat + 32) := by
      show (if c.toNat ≥ 65 ∧ c.toNat ≤ 90 then Char.ofNat (c.toNat + 32) else c) = _
      rw [if_pos ⟨h.1, h.2⟩]
    rw [hc, charToNat_ofNat (Or.inl (by omega))]
  · rw [if_neg h]
    have hc : Char.toLower c = c := by
      show (if c.toNat ≥ 65 ∧ c.toNat ≤ 90 then Char.ofNat (c.toNat + 32) else c) = c
      rw [if_neg (fun hcond => h ⟨hcond.1, hcond.2⟩)]
    rw [hc]

/-- Lowercasing does not change whether a character is a word character. -/
theorem isWordChar_toLower (c : Char) :
    isWordChar (Char.toLower c) = isWordChar c := by
  unfold isWordChar
  rw [toLower_toNat]
  split
  · next h => exact decide_eq_decide.mpr (by omega)
  · rfl

/-- The first character of a cased operator word is a word character. -/
theorem opsHead_word {op : List Char} (h : lowerList op ∈ OPS) :
    ∃ c cs, op = c :: cs ∧ isWordChar c = true := by
  cases op with
  | nil => simp [lowerList, OPS] at h
  | cons c cs =>
    refine ⟨c, cs, rfl, ?_⟩
    have hlow : Char.toLower c = 'a' ∨ Char.toLower c = 'o' ∨ Char.toLower c = 'n' := by
      simp only [OPS, lowerList, List.map_cons, List.mem_cons, List.not_mem_nil,
        or_false, List.cons.injEq] at h
      rcases h with ⟨h1, _⟩ | ⟨h1, _⟩ | ⟨h1, _⟩
      · exact Or.inl h1
      · exact Or.inr (Or.inl h1)
      · exact Or.inr (Or.inr h1)
    rw [← isWordChar_toLower]
    rcases hlow with h1 | h1 | h1 <;> rw [h1] <;> decide

/-- A delimited operator occurrence needs at least two characters. -/
theorem DelimOcc_length {b : Bool} {l : List Char} (h : DelimOcc b l) :
    2 ≤ l.length := by
  obtain ⟨pre, op, post, heq, hops, -, -, -⟩ := h
  have hop2 : 2 ≤ op.length := by
    have hlen : op.length = (lowerList op).length := by simp [lowerList]
    simp only [OPS, List.mem_cons, List.not_mem_nil, or_false] at hops
    rcases hops with h | h | h <;> rw [hlen, h] <;> simp
  rw [heq]
    ; simp only [List.length_append]
    ; omega

/-- Splitting a delimited occurrence in `c :: l`: either it starts at the
head (and the flag must be `false`), or the tail has a delimited occurrence
with the flag describing `c`. -/
theorem DelimOcc_cons {b : Bool} {c : Char} {l : List Char} (h : DelimOcc b (c :: l)) :
    (∃ op post, c :: l = op ++ post ∧ lowerList op ∈ OPS ∧ b = false ∧
      (∀ y, post.head? = some y → isWordChar y = false)) ∨
    DelimOcc (isWordChar c) l := by
  obtain ⟨pre, op, post, heq, hops, hpre0, hpreL, hpost⟩ := h
  cases pre with
  | nil =>
    exact Or.inl ⟨op, post, by simpa using heq, hops, hpre0 rfl, hpost⟩
  | cons p pre' =>
    right
    rw [List.cons_append, List.cons_append] at heq
    have hpc : p = c := (List.cons.injEq _ _ _ _).mp heq.symm |>.1
    have hl : l = pre' ++ op ++ post := by
      have := (List.cons.injEq _ _ _ _).mp heq.symm |>.2
      rw [← this, List.append_assoc]
    subst hpc
    refine ⟨pre', op, post, hl, hops, ?_, ?_, hpost⟩
    · intro hnil
      subst hnil
      exact hpreL p rfl
    · intro y hy
      apply hpreL
      cases pre' with
      | nil => simp at hy
      | cons z zs => rwa [List.getLast?_cons_cons]

/-- If an operator word sits at the head of `x :: l`, then `x` is a word
character. -/
theorem head_op_imp_word {op post l : List Char} {x : Char}
    (heq : x :: l = op ++ post) (hops : lowerList op ∈ OPS) :
    isWordChar x = true := by
  obtain ⟨c, cs, rfl, hw⟩ := opsHead_word hops
  rw [List.cons_append] at heq
  have hx : x = c := (List.cons.injEq _ _ _ _).mp heq |>.1
  rwa [hx]

/-- Scanning with the previous-character-is-word flag set never replaces at
the current position. -/
theorem subScanOps_step_true (x : Char) (xs : List Char) :
    subScanOps true (x :: xs) = x :: subScanOps (isWordChar x) xs := by
  cases xs with
  | nil => rfl
  | cons d tail =>
    cases tail with
    | nil => rfl
    | cons e t => rfl

/-- Inversion of one scan step with the word flag set. -/
theorem subScanOps_true_cons_inv {r tail : List Char} {x : Char}
    (h : subScanOps true r = x :: tail) :
    ∃ r', r = x :: r' ∧ tail = subScanOps (isWordChar x) r' := by
  cases r with
  | nil =>
    rw [show subScanOps true ([] : List Char) = [] from rfl] at h
    exact List.noConfusion h
  | cons z zs =>
    rw [subScanOps_step_true] at h
    have hz : z = x := (List.cons.injEq _ _ _ _).mp h |>.1
    subst hz
    exact ⟨zs, rfl, ((List.cons.injEq _ _ _ _).mp h |>.2).symm⟩

/-- The input suffix behind a fully matched occurrence starts with a
non-word character (or ends), given the rendered suffix does. -/
theorem boundary_of_subScanOps_true {r post : List Char}
    (h : subScanOps true r = post)
    (hpost : ∀ y, post.head? = some y → isWordChar y = false) :
    r = [] ∨ ∃ y ys, r = y :: ys ∧ isWordChar y = false := by
  cases r with
  | nil => exact Or.inl rfl
  | cons y ys =>
    right
    refine ⟨y, ys, rfl, ?_⟩
    rw [subScanOps_step_true] at h
    exact hpost y (by rw [← h]; rfl)

/-- A matched operator word fits inside the string. -/
theorem opMatchAt_length {s op : List Char} (h : opMatchAt s op = true) :
    op.length ≤ s.length := by
  unfold opMatchAt at h
  rw [Bool.and_eq_true] at h
  have heq : lowerList (s.take op.length) = op := by
    have := h.1
    exact beq_iff_eq.mp this
  have hlen : (lowerList (s.take op.length)).length = op.length := by rw [heq]
  simp only [lowerList, List.length_map, List.length_take] at hlen
  omega

/-- A matched operator word has a trailing word boundary. -/
theorem opMatchAt_boundary {s op : List Char} (h : opMatchAt s op = true) :
    boundaryAfter s op.length = true := by
  unfold opMatchAt at h
  rw [Bool.and_eq_true] at h
  exact h.2

/-- Unfolding a trailing word boundary at offset `k`. -/
theorem boundaryAfter_inv {s : List Char} {k : Nat} (h : boundaryAfter s k = true) :
    s.drop k = [] ∨ ∃ y ys, s.drop k = y :: ys ∧ isWordChar y = false := by
  unfold boundaryAfter at h
  cases hd : s.drop k with
  | nil => exact Or.inl rfl
  | cons y ys =>
    right
    refine ⟨y, ys, rfl, ?_⟩
    rw [hd] at h
    simpa using h

/-- If a two-letter operator word (both letters word characters) sits at the
head of the scan output `c :: subScanOps (isWordChar c) rest` followed by a
non-word character or the end, then the scan guard matched at this very
position. -/
theorem headOcc_opMatch2 {c : Char} {rest op post : List Char} {l1 l2 : Char}
    (hmap : lowerList op = [l1, l2])
    (hw1 : isWordChar l1 = true) (hw2 : isWordChar l2 = true)
    (heq : c :: subScanOps (isWordChar c) rest = op ++ post)
    (hpost : ∀ y, post.head? = some y → isWordChar y = false) :
    opMatchAt (c :: rest) [l1, l2] = true := by
  obtain ⟨c1, c2, rfl⟩ : ∃ c1 c2, op = [c1, c2] := by
    cases op with
    | nil => simp [lowerList] at hmap
    | cons a op' =>
      cases op' with
      | nil => simp [lowerList] at hmap
      | cons a2 op'' =>
        cases op'' with
        | nil => exact ⟨a, a2, rfl⟩
        | cons a3 op3 => simp [lowerList] at hmap
  simp only [lowerList, List.map_cons, List.map_nil, List.cons.injEq, and_true] at hmap
  obtain ⟨h1, h2⟩ := hmap
  simp only [List.cons_append, List.nil_append, List.cons.injEq] at heq
  obtain ⟨rfl, hrest⟩ := heq
  have hwc : isWordChar c = true := by
    rw [← isWordChar_toLower, h1]
    exact hw1
  rw [hwc] at hrest
  obtain ⟨r', hr1, hr2⟩ := subScanOps_true_cons_inv hrest
  have hwc2 : isWordChar c2 = true := by
    rw [← isWordChar_toLower, h2]
    exact hw2
  rw [hwc2] at hr2
  have hbd := boundary_of_subScanOps_true hr2.symm hpost
  subst hr1
  unfold opMatchAt
  rw [Bool.and_eq_true]
  constructor
  · rw [show ((c :: c2 :: r').take ([l1, l2] : List Char).length) = [c, c2] from rfl]
    simp [lowerList, h1, h2]
  · unfold boundaryAfter
    rw [show ((c :: c2 :: r').drop ([l1, l2] : List Char).length) = r' from rfl]
    rcases hbd with hnil | ⟨y, ys, hyys, hy⟩
    · rw [hnil]
    · rw [hyys]
      simpa using hy

/-- Same as `headOcc_opMatch2` for a three-letter operator word. -/
theorem headOcc_opMatch3 {c : Char} {rest op post : List Char} {l1 l2 l3 : Char}
    (hmap : lowerList op = [l1, l2, l3])
    (hw1 : isWordChar l1 = true) (hw2 : isWordChar l2 = true)
    (hw3 : isWordChar l3 = true)
    (heq : c :: subScanOps (isWordChar c) rest = op ++ post)
    (hpost : ∀ y, post.head? = some y → isWordChar y = false) :
    opMatchAt (c :: rest) [l1, l2, l3] = true := by
  obtain ⟨c1, c2, c3, rfl⟩ : ∃ c1 c2 c3, op = [c1, c2, c3] := by
    cases op with
    | nil => simp [lowerList] at hmap
    | cons a op' =>
      cases op' with
      | nil => simp [lowerList] at hmap
      | cons a2 op'' =>
        cases op'' with
        | nil => simp [lowerList] at hmap
        | cons a3 op3 =>
          cases op3 with
          | nil => exact ⟨a, a2, a3, rfl⟩
          | cons a4 op4 => simp [lowerList] at hmap
  simp only [lowerList, List.map_cons, List.map_nil, List.cons.injEq, and_true] at hmap
  obtain ⟨h1, h2, h3⟩ := hmap
  simp only [List.cons_append, List.nil_append, List.cons.injEq] at heq
  obtain ⟨rfl, hrest⟩ := heq
  have hwc : isWordChar c = true := by
    rw [← isWordChar_toLower, h1]
    exact hw1
  rw [hwc] at hrest
  obtain ⟨r', hr1, hr2⟩ := subScanOps_true_cons_inv hrest
  have hwc2 : isWordChar c2 = true := by
    rw [← isWordChar_toLower, h2]
    exact hw2
  rw [hwc2] at hr2
  obtain ⟨r'', hr1', hr2'⟩ := subScanOps_true_cons_inv hr2.symm
  have hwc3 : isWordChar c3 = true := by
    rw [← isWordChar_toLower, h3]
    exact hw3
  rw [hwc3] at hr2'
  have hbd := boundary_of_subScanOps_true hr2'.symm hpost
  subst hr1'
  subst hr1
  unfold opMatchAt
  rw [Bool.and_eq_true]
  constructor
  · rw [show ((c :: c2 :: c3 :: r'').take ([l1, l2, l3] : List Char).length)
      = [c, c2, c3] from rfl]
    simp [lowerList, h1, h2, h3]
  · unfold boundaryAfter
    rw [show ((c :: c2 :: c3 :: r'').drop ([l1, l2, l3] : List Char).length)
      = r'' from rfl]
    rcases hbd with hnil | ⟨y, ys, hyys, hy⟩
    · rw [hnil]
    · rw [hyys]
      simpa using hy

/-- Rendered replacement branches carry no delimited occurrence: the space is
not a word character, the following character (if any) is non-word by the
matched trailing boundary, and the rest is handled recursively. -/
theorem space_branch_no_delim {tail : List Char}
    (hbound : tail = [] ∨ ∃ y ys, tail = y :: ys ∧ isWordChar y = false)
    (ih : ∀ (y : Char) (ys : List Char), tail = y :: ys →
      ¬ DelimOcc (isWordChar y) (subScanOps (isWordChar y) ys)) :
    ¬ DelimOcc false (' ' :: subScanOps true tail) := by
  intro h
  rcases DelimOcc_cons h with ⟨op, post, heq, hops, -, hpost⟩ | h2
  · have hw := head_op_imp_word heq hops
    rw [show isWordChar ' ' = false from by decide] at hw
    exact Bool.noConfusion hw
  · rw [show isWordChar ' ' = false from by decide] at h2
    rcases hbound with hnil | ⟨y, ys, hyys, hy⟩
    · subst hnil
      rw [show subScanOps true ([] : List Char) = [] from rfl] at h2
      have := DelimOcc_length h2
      simp at this
    · subst hyys
      rw [subScanOps_step_true] at h2
      rcases DelimOcc_cons h2 with ⟨op, post, heq, hops, -, hpost⟩ | h3
      · have hw := head_op_imp_word heq hops
        rw [hw] at hy
        exact Bool.noConfusion hy
      · exact ih y ys rfl h3

set_option maxHeartbeats 2000000 in
/-- Unfolding the scan at a whole-word `AND` match. -/
theorem subScanOps_false_and {c d e : Char} {rest3 : List Char}
    (hand : opMatchAt (c :: d :: e :: rest3) ['a', 'n', 'd'] = true) :
    subScanOps false (c :: d :: e :: rest3) = ' ' :: subScanOps true rest3 := by
  rw [subScanOps, if_neg (by decide), if_pos hand]

/-- Unfolding the scan at a whole-word `OR` match. -/
theorem subScanOps_false_or {c d : Char} {rest2 : List Char}
    (hor : opMatchAt (c :: d :: rest2) ['o', 'r'] = true)
    (hand : opMatchAt (c :: d :: rest2) ['a', 'n', 'd'] = false) :
    subScanOps false (c :: d :: rest2) = ' ' :: subScanOps true rest2 := by
  cases rest2 with
  | nil => simp [subScanOps, hor, hand]
  | cons e rest3 => rw [subScanOps, if_neg (by decide), if_neg (by simp [hand]), if_pos hor]

/-- Unfolding the scan at a whole-word `NOT` match. -/
theorem subScanOps_false_not {c d e : Char} {rest3 : List Char}
    (hnot : opMatchAt (c :: d :: e :: rest3) ['n', 'o', 't'] = true)
    (hand : opMatchAt (c :: d :: e :: rest3) ['a', 'n', 'd'] = false)
    (hor : opMatchAt (c :: d :: e :: rest3) ['o', 'r'] = false) :
    subScanOps false (c :: d :: e :: rest3) = ' ' :: subScanOps true rest3 := by
  rw [subScanOps, if_neg (by decide), if_neg (by simp [hand]), if_neg (by simp [hor]),
    if_pos hnot]

/-- Unfolding the scan when no operator matches at this position. -/
theorem subScanOps_false_nomatch {c : Char} {rest : List Char}
    (hand : opMatchAt (c :: rest) ['a', 'n', 'd'] = false)
    (hor : opMatchAt (c :: rest) ['o', 'r'] = false)
    (hnot : opMatchAt (c :: rest) ['n', 'o', 't'] = false) :
    subScanOps false (c :: rest) = c :: subScanOps (isWordChar c) rest := by
  cases rest with
  | nil => simp [subScanOps, hand, hor, hnot]
  | cons d rest' =>
    cases rest' with
    | nil => simp [subScanOps, hand, hor, hnot]
    | cons e rest3 =>
      rw [subScanOps, if_neg (by decide), if_neg (by simp [hand]), if_neg (by simp [hor]),
        if_neg (by simp [hnot])]

/-- Strong-induction core of `subScanOps_no_delim`, with an explicit length
bound as the induction measure. -/
theorem subScanOps_no_delim_aux :
    ∀ (n : Nat) (s : List Char), s.length ≤ n → ∀ b, ¬ DelimOcc b (subScanOps b s) := by
  intro n
  induction n with
  | zero =>
    intro s hs b h
    have hnil : s = [] := List.length_eq_zero.mp (Nat.le_zero.mp hs)
    subst hnil
    have h2 := DelimOcc_length h
    rw [show subScanOps b [] = [] from by cases b <;> rfl] at h2
    simp at h2
  | succ n ih =>
    intro s hs b
    cases s with
    | nil =>
      intro h
      have h2 := DelimOcc_length h
      rw [show subScanOps b [] = [] from by cases b <;> rfl] at h2
      simp at h2
    | cons c rest =>
      simp only [List.length_cons] at hs
      cases b with
      | true =>
        rw [subScanOps_step_true]
        intro h
        rcases DelimOcc_cons h with ⟨op, post, heq, hops, hbf, hpost⟩ | h2
        · exact Bool.noConfusion hbf
        · exact ih rest (by omega) (isWordChar c) h2
      | false =>
        by_cases hand : opMatchAt (c :: rest) ['a', 'n', 'd'] = true
        · have hlen := opMatchAt_length hand
          cases rest with
          | nil => simp at hlen
          | cons d rest' =>
            cases rest' with
            | nil => simp at hlen
            | cons e rest3 =>
              rw [subScanOps_false_and hand]
              have hbd := boundaryAfter_inv (opMatchAt_boundary hand)
              rw [show ((c :: d :: e :: rest3).drop
                (['a', 'n', 'd'] : List Char).length) = rest3 from rfl] at hbd
              refine space_branch_no_delim hbd ?_
              intro y ys hyys h
              refine ih ys ?_ (isWordChar y) h
              subst hyys
              simp only [List.length_cons] at hs
              omega
        · by_cases hor : opMatchAt (c :: rest) ['o', 'r'] = true
          · have hlen := opMatchAt_length hor
            cases rest with
            | nil => simp at hlen
            | cons d rest2 =>
              rw [subScanOps_false_or hor (Bool.eq_false_iff.mpr hand)]
              have hbd := boundaryAfter_inv (opMatchAt_boundary hor)
              rw [show ((c :: d :: rest2).drop
                (['o', 'r'] : List Char).length) = rest2 from rfl] at hbd
              refine space_branch_no_delim hbd ?_
              intro y ys hyys h
              refine ih ys ?_ (isWordChar y) h
              subst hyys
              simp only [List.length_cons] at hs
              omega
          · by_cases hnot : opMatchAt (c :: rest) ['n', 'o', 't'] = true
            · have hlen := opMatchAt_length hnot
              cases rest with
              | nil => simp at hlen
              | cons d rest' =>
                cases rest' with
                | nil => simp at hlen
                | cons e rest3 =>
                  rw [subScanOps_false_not hnot (Bool.eq_false_iff.mpr hand)
                    (Bool.eq_false_iff.mpr hor)]
                  have hbd := boundaryAfter_inv (opMatchAt_boundary hnot)
                  rw [show ((c :: d :: e :: rest3).drop
                    (['n', 'o', 't'] : List Char).length) = rest3 from rfl] at hbd
                  refine space_branch_no_delim hbd ?_
                  intro y ys hyys h
                  refine ih ys ?_ (isWordChar y) h
                  subst hyys
                  simp only [List.length_cons] at hs
                  omega
            · rw [subScanOps_false_nomatch (Bool.eq_false_iff.mpr hand)
                (Bool.eq_false_iff.mpr hor) (Bool.eq_false_iff.mpr hnot)]
              intro h
              rcases DelimOcc_cons h with ⟨op, post, heq, hops, -, hpost⟩ | h2
              · simp only [OPS, List.mem_cons, List.not_mem_nil, or_false] at hops
                rcases hops with hmap | hmap | hmap
                · exact absurd
                    (headOcc_opMatch3 hmap (by decide) (by decide) (by decide) heq hpost)
                    hand
                · exact absurd
                    (headOcc_opMatch2 hmap (by decide) (by decide) heq hpost) hor
                · exact absurd
                    (headOcc_opMatch3 hmap (by decide) (by decide) (by decide) heq hpost)
                    hnot
              · exact ih rest (by omega) (isWordChar c) h2

/-- The output of the operator-removal scan contains no delimited operator
occurrence: every whole-word occurrence present in the input is replaced, and
replacement cannot create new whole-word occurrences. -/
theorem subScanOps_no_delim (s : List Char) (b : Bool) : ¬ DelimOcc b (subScanOps b s) :=
  subScanOps_no_delim_aux s.length s le_rfl b

/-! ## Assembly for `_extract_query_terms`: surviving tokens and operators -/

/-- A boolean that is not `true` is `false`. -/
theorem bool_eq_false {b : Bool} (h : ¬ b = true) : b = false := by
  cases b with
  | false => rfl
  | true => exact absurd rfl h

/-- An operator word cannot match at the head of a string shorter than it. -/
theorem opMatchAt_false_of_short {s op : List Char} (h : s.length < op.length) :
    opMatchAt s op = false := by
  cases hm : opMatchAt s op with
  | false => rfl
  | true => exact absurd (opMatchAt_length hm) (by omega)

/-- Every character of the operator-removal scan's output is a character of
its input or a space inserted by the substitution. -/
theorem subScanOps_chars_aux :
    ∀ (n : Nat) (s : List Char), s.length ≤ n → ∀ (b : Bool) (x : Char),
      x ∈ subScanOps b s → x ∈ s ∨ x = ' ' := by
  intro n
  induction n with
  | zero =>
    intro s hs b x hx
    cases s with
    | nil =>
      rw [show subScanOps b ([] : List Char) = [] from rfl] at hx
      exact absurd hx (List.not_mem_nil x)
    | cons c rest => simp at hs
  | succ n ih =>
    intro s hs b x hx
    cases s with
    | nil =>
      rw [show subScanOps b ([] : List Char) = [] from rfl] at hx
      exact absurd hx (List.not_mem_nil x)
    | cons c rest =>
      simp only [List.length_cons] at hs
      cases b with
      | true =>
        rw [subScanOps_step_true] at hx
        rcases List.mem_cons.1 hx with rfl | hx'
        · exact Or.inl (List.mem_cons_self _ _)
        · rcases ih rest (by omega) (isWordChar c) x hx' with h | h
          · exact Or.inl (List.mem_cons_of_mem c h)
          · exact Or.inr h
      | false =>
        cases rest with
        | nil =>
          have hand : opMatchAt [c] ['a', 'n', 'd'] = false :=
            opMatchAt_false_of_short (by simp only [List.length_cons, List.length_nil]; omega)
          have hor : opMatchAt [c] ['o', 'r'] = false :=
            opMatchAt_false_of_short (by simp only [List.length_cons, List.length_nil]; omega)
          have hnot : opMatchAt [c] ['n', 'o', 't'] = false :=
            opMatchAt_false_of_short (by simp only [List.length_cons, List.length_nil]; omega)
          rw [subScanOps_false_nomatch hand hor hnot] at hx
          rcases List.mem_cons.1 hx with rfl | hx'
          · exact Or.inl (List.mem_cons_self _ _)
          · rcases ih [] (by simp) (isWordChar c) x hx' with h | h
            · exact absurd h (List.not_mem_nil x)
            · exact Or.inr h
        | cons d rest' =>
          cases rest' with
          | nil =>
            have hand : opMatchAt [c, d] ['a', 'n', 'd'] = false :=
              opMatchAt_false_of_short (by simp only [List.length_cons, List.length_nil]; omega)
            have hnot : opMatchAt [c, d] ['n', 'o', 't'] = false :=
              opMatchAt_false_of_short (by simp only [List.length_cons, List.length_nil]; omega)
            by_cases hor : opMatchAt [c, d] ['o', 'r'] = true
            · rw [subScanOps_false_or hor hand] at hx
              rcases List.mem_cons.1 hx with rfl | hx'
              · exact Or.inr rfl
              · rcases ih [] (by simp) true x hx' with h | h
                · exact absurd h (List.not_mem_nil x)
                · exact Or.inr h
            · rw [subScanOps_false_nomatch hand (bool_eq_false hor) hnot] at hx
              rcases List.mem_cons.1 hx with rfl | hx'
              · exact Or.inl (List.mem_cons_self _ _)
              · rcases ih [d] (by simp only [List.length_cons, List.length_nil] at hs ⊢; omega)
                  (isWordChar c) x hx' with h | h
                · exact Or.inl (List.mem_cons_of_mem c h)
                · exact Or.inr h
          | cons e rest3 =>
            by_cases hand : opMatchAt (c :: d :: e :: rest3) ['a', 'n', 'd'] = true
            · rw [subScanOps_false_and hand] at hx
              rcases List.mem_cons.1 hx with rfl | hx'
              · exact Or.inr rfl
              · rcases ih rest3 (by simp only [List.length_cons] at hs; omega) true x hx'
                  with h | h
                · exact Or.inl (List.mem_cons_of_mem c (List.mem_cons_of_mem d
                    (List.mem_cons_of_mem e h)))
                · exact Or.inr h
            · by_cases hor : opMatchAt (c :: d :: e :: rest3) ['o', 'r'] = true
              · rw [subScanOps_false_or hor (bool_eq_false hand)] at hx
                rcases List.mem_cons.1 hx with rfl | hx'
                · exact Or.inr rfl
                · rcases ih (e :: rest3)
                    (by simp only [List.length_cons] at hs ⊢; omega) true x hx' with h | h
                  · exact Or.inl (List.mem_cons_of_mem c (List.mem_cons_of_mem d h))
                  · exact Or.inr h
              · by_cases hnot : opMatchAt (c :: d :: e :: rest3) ['n', 'o', 't'] = true
                · rw [subScanOps_false_not hnot (bool_eq_false hand) (bool_eq_false hor)] at hx
                  rcases List.mem_cons.1 hx with rfl | hx'
                  · exact Or.inr rfl
                  · rcases ih rest3 (by simp only [List.length_cons] at hs; omega) true x hx'
                      with h | h
                    · exact Or.inl (List.mem_cons_of_mem c (List.mem_cons_of_mem d
                        (List.mem_cons_of_mem e h)))
                    · exact Or.inr h
                · rw [subScanOps_false_nomatch (bool_eq_false hand) (bool_eq_false hor)
                    (bool_eq_false hnot)] at hx
                  rcases List.mem_cons.1 hx with rfl | hx'
                  · exact Or.inl (List.mem_cons_self _ _)
                  · rcases ih (d :: e :: rest3)
                      (by simp only [List.length_cons] at hs ⊢; omega)
                      (isWordChar c) x hx' with h | h
                    · exact Or.inl (List.mem_cons_of_mem c h)
                    · exact Or.inr h

/-- Character containment for the scan, with the fuel eliminated. -/
theorem subScanOps_chars (s : List Char) (b : Bool) :
    ∀ x ∈ subScanOps b s, x ∈ s ∨ x = ' ' :=
  fun x hx => subScanOps_chars_aux s.length s le_rfl b x hx

/-- On a quote-free query the quote-removal filter is the identity: the scan
only copies input characters or inserts spaces, none of which are quotes. -/
theorem filter_quotes_id {q : List Char} (hq : ∀ c ∈ q, c ≠ '"' ∧ c ≠ '\'') :
    (subScanOps false q).filter (fun c => !(c = '"' || c = '\'')) = subScanOps false q := by
  rw [List.filter_eq_self]
  intro a ha
  rcases subScanOps_chars q false a ha with h | rfl
  · have h1 : a ≠ '"' := (hq a h).1
    have h2 : a ≠ '\'' := (hq a h).2
    simp [h1, h2]
  · decide

/-- The head of a `dropWhile` residue fails the predicate. -/
theorem dropWhile_head_false (p : Char → Bool) :
    ∀ (l : List Char) (y : Char), (l.dropWhile p).head? = some y → p y = false := by
  intro l
  induction l with
  | nil => intro y h; simp at h
  | cons x xs ih =>
    intro y h
    rw [List.dropWhile_cons] at h
    split at h
    · exact ih y h
    · rename_i hp
      simp only [List.head?_cons, Option.some.injEq] at h
      subst h
      exact bool_eq_false hp

/-- Specification of the whitespace split: every produced token is a
non-empty whitespace-free slice of the input whose two neighbours (when they
exist) are whitespace characters. -/
theorem splitWsF_spec :
    ∀ (fuel : Nat) (s : List Char), s.length ≤ fuel →
      ∀ t ∈ splitWsF fuel s,
        t ≠ [] ∧ (∀ y ∈ t, y.isWhitespace = false) ∧
        ∃ pre post, s = pre ++ t ++ post ∧
          (∀ y, pre.getLast? = some y → y.isWhitespace = true) ∧
          (∀ y, post.head? = some y → y.isWhitespace = true) := by
  intro fuel
  induction fuel with
  | zero =>
    intro s hs t ht
    rw [show splitWsF 0 s = [] from rfl] at ht
    exact absurd ht (List.not_mem_nil t)
  | succ n ih =>
    intro s hs t ht
    cases s with
    | nil =>
      rw [show splitWsF (n + 1) ([] : List Char) = [] from rfl] at ht
      exact absurd ht (List.not_mem_nil t)
    | cons c rest =>
      simp only [List.length_cons] at hs
      have hdef : splitWsF (n + 1) (c :: rest) =
          if c.isWhitespace then splitWsF n rest
          else (c :: rest.takeWhile (fun d => !d.isWhitespace)) ::
            splitWsF n (rest.dropWhile (fun d => !d.isWhitespace)) := rfl
      rw [hdef] at ht
      by_cases hw : c.isWhitespace = true
      · rw [if_pos hw] at ht
        obtain ⟨hne, hnws, pre, post, hdec, hpre, hpost⟩ := ih rest (by omega) t ht
        refine ⟨hne, hnws, c :: pre, post, by rw [hdec]; rfl, ?_, hpost⟩
        intro y hy
        cases pre with
        | nil =>
          have hc : ([c] : List Char).getLast? = some c := rfl
          rw [hc] at hy
          injection hy with h
          subst h
          exact hw
        | cons p ps =>
          rw [List.getLast?_cons_cons] at hy
          exact hpre y hy
      · rw [if_neg hw] at ht
        rcases List.mem_cons.1 ht with rfl | ht'
        · refine ⟨by simp, ?_, [], rest.dropWhile (fun d => !d.isWhitespace), ?_, ?_, ?_⟩
          · intro y hy
            rcases List.mem_cons.1 hy with rfl | hy'
            · exact bool_eq_false hw
            · have := List.mem_takeWhile_imp hy'
              simpa using this
          · conv_rhs => rw [List.nil_append, List.cons_append,
              List.takeWhile_append_dropWhile]
          · intro y hy
            simp at hy
          · intro y hy
            have := dropWhile_head_false (fun d => !d.isWhitespace) rest y hy
            simpa using this
        · have hlen : (rest.dropWhile (fun d => !d.isWhitespace)).length ≤ n := by
            have h1 : (rest.dropWhile (fun d => !d.isWhitespace)).length ≤ rest.length :=
              (List.dropWhile_sublist _).length_le
            omega
          obtain ⟨hne, hnws, pre, post, hdec, hpre, hpost⟩ := ih _ hlen t ht'
          refine ⟨hne, hnws, c :: (rest.takeWhile (fun d => !d.isWhitespace) ++ pre),
            post, ?_, ?_, hpost⟩
          · conv_lhs => rw [show rest =
              rest.takeWhile (fun d => !d.isWhitespace) ++
                rest.dropWhile (fun d => !d.isWhitespace) from
              (List.takeWhile_append_dropWhile _ _).symm]
            rw [hdec]
            simp [List.cons_append, List.append_assoc]
          · intro y hy
            by_cases hpe : pre = []
            · subst hpe
              obtain ⟨z, t', rfl⟩ : ∃ z t', t = z :: t' := by
                cases t with
                | nil => exact absurd rfl hne
                | cons z t' => exact ⟨z, t', rfl⟩
              have hhead : (rest.dropWhile (fun d => !d.isWhitespace)).head? = some z := by
                rw [hdec]; rfl
              have hz := dropWhile_head_false (fun d => !d.isWhitespace) rest z hhead
              have hz2 : z.isWhitespace = true := by simpa using hz
              exact absurd hz2 (by simp [hnws z (List.mem_cons_self z t')])
            · rw [← List.cons_append] at hy
              rw [List.getLast?_append_of_ne_nil _ hpe] at hy
              exact hpre y hy

/-- Specification of `splitWs` itself. -/
theorem splitWs_spec (s : List Char) :
    ∀ t ∈ splitWs s,
      t ≠ [] ∧ (∀ y ∈ t, y.isWhitespace = false) ∧
      ∃ pre post, s = pre ++ t ++ post ∧
        (∀ y, pre.getLast? = some y → y.isWhitespace = true) ∧
        (∀ y, post.head? = some y → y.isWhitespace = true) :=
  splitWsF_spec s.length s le_rfl

/-- The punctuation strip removes a punctuation-only prefix and a
punctuation-only suffix, leaving a contiguous middle slice of the token. -/
theorem stripPunct_decomp (t : List Char) :
    ∃ t1 t2, t = t1 ++ stripPunct t ++ t2 ∧
      (∀ c ∈ t1, isPunctChar c = true) ∧ (∀ c ∈ t2, isPunctChar c = true) := by
  refine ⟨t.takeWhile isPunctChar,
    ((t.dropWhile isPunctChar).reverse.takeWhile isPunctChar).reverse, ?_, ?_, ?_⟩
  · unfold stripPunct
    conv_lhs => rw [← List.takeWhile_append_dropWhile isPunctChar t]
    rw [List.append_assoc]
    congr 1
    rw [← List.reverse_append, List.takeWhile_append_dropWhile, List.reverse_reverse]
  · intro c hc
    exact List.mem_takeWhile_imp hc
  · intro c hc
    rw [List.mem_reverse] at hc
    exact List.mem_takeWhile_imp hc

/-- Stripped punctuation characters are not word characters, so they provide
the trailing and leading word boundaries of a delimited occurrence. -/
theorem punct_not_word {c : Char} (h : isPunctChar c = true) : isWordChar c = false := by
  have h2 : List.elem c PUNCT = true := h
  have hm : c ∈ PUNCT := by simpa using h2
  simp only [PUNCT, List.mem_cons, List.not_mem_nil, or_false] at hm
  rcases hm with rfl | rfl | rfl | rfl | rfl | rfl | rfl | rfl | rfl | rfl | rfl | rfl |
    rfl | rfl <;> decide

/-- Whitespace characters are not word characters. -/
theorem ws_not_word {c : Char} (h : c.isWhitespace = true) : isWordChar c = false := by
  simp only [Char.isWhitespace, Bool.or_eq_true, decide_eq_true_eq] at h
  rcases h with ((rfl | rfl) | rfl) | rfl <;> decide

/-- Every term kept by `_extract_query_terms` has length at least 2: the
`len(t) > 1` filter is the last step of the extraction. -/
theorem extract_terms_length (q : List Char) :
    ∀ t ∈ extract_query_terms q, 2 ≤ t.length := by
  intro t ht
  simp only [extract_query_terms, List.mem_filterMap] at ht
  obtain ⟨token, -, hsome⟩ := ht
  by_cases h : 1 < (stripPunct token).length
  · rw [if_pos h] at hsome
    injection hsome with h2
    subst h2
    omega
  · rw [if_neg h] at hsome
    exact absurd hsome (by simp)

/-- On a quote-free query no extracted term is an operator word: a surviving
operator token would be a whole-word occurrence of `AND`/`OR`/`NOT` in the
output of the substitution that removes exactly those occurrences. -/
theorem extract_terms_no_ops {q : List Char} (hq : ∀ c ∈ q, c ≠ '"' ∧ c ≠ '\'') :
    ∀ t ∈ extract_query_terms q, lowerList t ∉ OPS := by
  intro t ht hops
  simp only [extract_query_terms, List.mem_filterMap] at ht
  obtain ⟨token, htok, hsome⟩ := ht
  rw [filter_quotes_id hq] at htok
  have hst : stripPunct token = t := by
    by_cases h : 1 < (stripPunct token).length
    · rw [if_pos h] at hsome
      exact Option.some.inj hsome
    · rw [if_neg h] at hsome
      exact absurd hsome (by simp)
  obtain ⟨hne, hnws, pre, post, hdec, hpre, hpost⟩ := splitWs_spec _ token htok
  obtain ⟨t1, t2, htdec, ht1, ht2⟩ := stripPunct_decomp token
  rw [hst] at htdec
  apply subScanOps_no_delim q false
  have hdec' : subScanOps false q = (pre ++ t1) ++ t ++ (t2 ++ post) := by
    rw [hdec, htdec]
    simp [List.append_assoc]
  have hpre' : ∀ y, (pre ++ t1).getLast? = some y → isWordChar y = false := by
    intro y hy
    by_cases h1 : t1 = []
    · subst h1
      rw [List.append_nil] at hy
      exact ws_not_word (hpre y hy)
    · rw [List.getLast?_append_of_ne_nil _ h1] at hy
      obtain ⟨ys, hys⟩ := List.getLast?_eq_some_iff.mp hy
      refine punct_not_word (ht1 y ?_)
      rw [hys]
      simp
  have hpost' : ∀ y, (t2 ++ post).head? = some y → isWordChar y = false := by
    intro y hy
    cases t2 with
    | nil =>
      rw [List.nil_append] at hy
      exact ws_not_word (hpost y hy)
    | cons z t2' =>
      rw [List.cons_append, List.head?_cons] at hy
      injection hy with h
      subst h
      exact punct_not_word (ht2 _ (List.mem_cons_self _ _))
  exact ⟨pre ++ t1, t, t2 ++ post, hdec', hops, fun _ => rfl, hpre', hpost'⟩

/-- C3 counterexample to the original wording: the query `a"nd` yields the
single term `and`, an operator word, because quote characters are removed
only after the whole-word operator substitution, so a quote inside a word
can splice an operator word together. -/
theorem extract_terms_operator_counterexample :
    extract_query_terms ['a', '"', 'n', 'd'] = [['a', 'n', 'd']] ∧
    lowerList ['a', 'n', 'd'] ∈ OPS := by
  constructor
  · decide
  · decide

/-- C3 (corrected): every term returned by `_extract_query_terms` has length
at least 2, and, provided the query contains no double-quote or single-quote
character, no returned term equals `AND`, `OR` or `NOT` case-insensitively.
The operator half of the original claim is false for arbitrary queries: quote
removal happens after operator removal, so a quote can splice an operator
word together (see `extract_terms_operator_counterexample`). -/
theorem extract_query_terms_spec (q : List Char) :
    (∀ t ∈ extract_query_terms q, 2 ≤ t.length) ∧
    ((∀ c ∈ q, c ≠ '"' ∧ c ≠ '\'') →
      ∀ t ∈ extract_query_terms q, lowerList t ∉ OPS) :=
  ⟨extract_terms_length q, fun hq => extract_terms_no_ops hq⟩

/-- Witness for `extract_query_terms_spec` at the quote-free query `ab`,
whose extraction keeps the single term `ab`. -/
theorem extract_query_terms_spec_witness :
    2 ≤ (['a', 'b'] : List Char).length ∧ lowerList ['a', 'b'] ∉ OPS :=
  ⟨(extract_query_terms_spec ['a', 'b']).1 ['a', 'b'] (by decide),
   (extract_query_terms_spec ['a', 'b']).2 (by decide) ['a', 'b'] (by decide)⟩

end McpFess
